import Mathlib

/-!
Shallow embedding of the transaction-extraction core of the
`statement-converter` repository (src/app.py and src/app-v2.py),
together with proofs settling the frozen claims about its
natural-language specification.

Strings are modelled as `String` / `List Char`; monetary values are
modelled exactly, as integer cents (all values in the pipeline are
multiples of 0.01 small enough that Python float comparisons agree with
exact rational comparison); Python regular-expression searches are
modelled by hand-written matchers for the specific patterns used by the
source, reproducing leftmost, greedy-with-backtracking, non-overlapping
semantics.
-/

namespace SC

/-! ### Character classes (ASCII, as used by the source's patterns) -/

def isDigitC (c : Char) : Bool := decide ('0' ≤ c) && decide (c ≤ '9')

def isWordC (c : Char) : Bool :=
  isDigitC c || (decide ('a' ≤ c) && decide (c ≤ 'z')) ||
    (decide ('A' ≤ c) && decide (c ≤ 'Z')) || c == '_'

def isSpaceC (c : Char) : Bool :=
  c == ' ' || c == '\t' || c == '\n' || c == '\r' ||
    c == Char.ofNat 11 || c == Char.ofNat 12

def lowerC (c : Char) : Char :=
  if decide ('A' ≤ c) && decide (c ≤ 'Z') then Char.ofNat (c.toNat + 32) else c

def toLowerCs (cs : List Char) : List Char := cs.map lowerC

/-! ### Basic string operations (Python `strip`, `in`, `replace`, `split`, `zfill`) -/

def trimCs (cs : List Char) : List Char :=
  ((cs.dropWhile isSpaceC).reverse.dropWhile isSpaceC).reverse

def startsWithCs : List Char → List Char → Bool
  | [], _ => true
  | _ :: _, [] => false
  | p :: ps, c :: cs => p == c && startsWithCs ps cs

/-- Python substring containment `pat in hay`. -/
def containsCs (pat : List Char) : List Char → Bool
  | [] => pat.isEmpty
  | c :: cs => startsWithCs pat (c :: cs) || containsCs pat cs

/-- Python `hay.replace(pat, repl)`: all non-overlapping occurrences, left to right. -/
def replaceAllAux (pat repl : List Char) : Nat → List Char → List Char
  | _, [] => []
  | 0, cs => cs
  | fuel + 1, c :: cs =>
    if startsWithCs pat (c :: cs) && !pat.isEmpty then
      repl ++ replaceAllAux pat repl fuel ((c :: cs).drop pat.length)
    else c :: replaceAllAux pat repl fuel cs

def replaceAll (cs pat repl : List Char) : List Char :=
  replaceAllAux pat repl cs.length cs

/-- Python `s.split()` (split on whitespace runs, dropping empties). -/
def splitWordsAux : List Char → List Char → List (List Char)
  | cur, [] => if cur.isEmpty then [] else [cur.reverse]
  | cur, c :: cs =>
    if isSpaceC c then
      if cur.isEmpty then splitWordsAux [] cs else cur.reverse :: splitWordsAux [] cs
    else splitWordsAux (c :: cur) cs

def splitWordsCs (cs : List Char) : List (List Char) := splitWordsAux [] cs

/-- Python `' '.join(ws)`. -/
def joinWords : List (List Char) → List Char
  | [] => []
  | [w] => w
  | w :: ws => w ++ ' ' :: joinWords ws

/-- Python `s.split('/')`. -/
def splitSlashAux : List Char → List Char → List (List Char)
  | cur, [] => [cur.reverse]
  | cur, c :: cs =>
    if c == '/' then cur.reverse :: splitSlashAux [] cs else splitSlashAux (c :: cur) cs

def splitSlash (cs : List Char) : List (List Char) := splitSlashAux [] cs

/-- Python `s.zfill(2)`. -/
def zfill2 (cs : List Char) : List Char :=
  if cs.length < 2 then List.replicate (2 - cs.length) '0' ++ cs else cs

def peekDigits (cs : List Char) (k : Nat) : Bool :=
  decide (k ≤ cs.length) && (cs.take k).all isDigitC

/-! ### The date pattern `\d{1,2}/\d{1,2}/\d{4}` (re.search, leftmost match) -/

def dateMid (cs : List Char) (k2 : Nat) : Option Nat :=
  if peekDigits cs k2 && ((cs.drop k2).take 1 == ['/']) && peekDigits (cs.drop (k2 + 1)) 4 then
    some (k2 + 1 + 4)
  else none

def dateFrom (cs : List Char) (k1 : Nat) : Option Nat :=
  if peekDigits cs k1 && ((cs.drop k1).take 1 == ['/']) then
    ((dateMid (cs.drop (k1 + 1)) 2).orElse fun _ => dateMid (cs.drop (k1 + 1)) 1).map
      (· + (k1 + 1))
  else none

/-- Greedy match of the date pattern anchored at the head of `cs`. -/
def tryDate (cs : List Char) : Option Nat :=
  (dateFrom cs 2).orElse fun _ => dateFrom cs 1

/-- `re.search(r'(\d{1,2}/\d{1,2}/\d{4})', ...)`: the leftmost matched substring. -/
def searchDateCs : List Char → Option (List Char)
  | [] => none
  | c :: cs =>
    match tryDate (c :: cs) with
    | some n => some ((c :: cs).take n)
    | none => searchDateCs cs

/-! ### The strict monetary pattern `\b\d{1,3}(?:,\d{3})*\.\d{2}\b` -/

def strictGroupsAux : Nat → List Char → Nat
  | 0, _ => 0
  | fuel + 1, cs =>
    if cs.take 1 == [','] && peekDigits (cs.drop 1) 3 then
      4 + strictGroupsAux fuel (cs.drop 4)
    else 0

/-- Match of the strict pattern anchored at the head of `cs`; `pw` says whether the
    preceding character is a word character (for `\b`).  Backtracking never helps for
    this pattern (any shorter choice puts a digit or a comma where `.` is required),
    so the greedy deterministic scan is exact. -/
def matchStrictAt (pw : Bool) (cs : List Char) : Option Nat :=
  if pw then none
  else
    let l0 := (cs.takeWhile isDigitC).length
    if l0 == 0 || decide (3 < l0) then none
    else
      let g := strictGroupsAux cs.length (cs.drop l0)
      let rest := cs.drop (l0 + g)
      if rest.take 1 == ['.'] && peekDigits (rest.drop 1) 2 then
        match rest.drop 3 with
        | [] => some (l0 + g + 3)
        | c :: _ => if isWordC c then none else some (l0 + g + 3)
      else none

/-! ### The loose monetary pattern `\b\d{1,3}(?:,\d{3})*\.?\d{0,2}\b`
    (full greedy backtracking, alternatives tried in the regex engine's order) -/

def looseBoundary (lastWord : Bool) : List Char → Bool
  | [] => lastWord
  | c :: _ => lastWord != isWordC c

def tryDno (lastWord : Bool) (cs : List Char) (d : Nat) : Option Nat :=
  if peekDigits cs d && looseBoundary (if d == 0 then lastWord else true) (cs.drop d) then
    some d
  else none

def tryD (lastWord : Bool) (cs : List Char) : Option Nat :=
  (tryDno lastWord cs 2).orElse fun _ =>
    (tryDno lastWord cs 1).orElse fun _ => tryDno lastWord cs 0

def tryC (lastWord : Bool) (cs : List Char) : Option Nat :=
  (if cs.take 1 == ['.'] then (tryD false (cs.drop 1)).map (· + 1) else none).orElse fun _ =>
    tryD lastWord cs

def tryB : Nat → List Char → Option Nat
  | 0, cs => tryC true cs
  | fuel + 1, cs =>
    (if cs.take 1 == [','] && peekDigits (cs.drop 1) 3 then
        (tryB fuel (cs.drop 4)).map (· + 4)
      else none).orElse fun _ => tryC true cs

def tryAk (cs : List Char) (k : Nat) : Option Nat :=
  if peekDigits cs k then (tryB cs.length (cs.drop k)).map (· + k) else none

def matchLooseAt (pw : Bool) (cs : List Char) : Option Nat :=
  if pw then none
  else (tryAk cs 3).orElse fun _ => (tryAk cs 2).orElse fun _ => tryAk cs 1

/-! ### `re.findall` / `re.sub` drivers (non-overlapping, resuming after each match) -/

def findAllAux (m : Bool → List Char → Option Nat) : Nat → Bool → List Char → List (List Char)
  | 0, _, _ => []
  | _, _, [] => []
  | fuel + 1, pw, c :: cs =>
    match m pw (c :: cs) with
    | some n =>
      if n == 0 then findAllAux m fuel (isWordC c) cs
      else
        ((c :: cs).take n) ::
          findAllAux m fuel (isWordC (((c :: cs).take n).getLastD c)) ((c :: cs).drop n)
    | none => findAllAux m fuel (isWordC c) cs

def findAllStrict (cs : List Char) : List String :=
  (findAllAux matchStrictAt cs.length false cs).map fun l => String.mk l

def findAllLoose (cs : List Char) : List String :=
  (findAllAux matchLooseAt cs.length false cs).map fun l => String.mk l

/-- `re.sub(pattern, '', s)` for the digit-run patterns below. -/
def subAllAux (m : Bool → List Char → Option Nat) : Nat → Bool → List Char → List Char
  | 0, _, cs => cs
  | _, _, [] => []
  | fuel + 1, pw, c :: cs =>
    match m pw (c :: cs) with
    | some n =>
      if n == 0 then c :: subAllAux m fuel (isWordC c) cs
      else subAllAux m fuel (isWordC (((c :: cs).take n).getLastD c)) ((c :: cs).drop n)
    | none => c :: subAllAux m fuel (isWordC c) cs

/-- `\b\d{6,}\b`: a maximal digit run of length at least 6 with word boundaries. -/
def matchRun6At (pw : Bool) (cs : List Char) : Option Nat :=
  if pw then none
  else
    let run := (cs.takeWhile isDigitC).length
    if run < 6 then none
    else
      match cs.drop run with
      | [] => some run
      | c :: _ => if isWordC c then none else some run

/-- `\b00\d{4,}\b`. -/
def matchRun00At (pw : Bool) (cs : List Char) : Option Nat :=
  if pw then none
  else
    let run := (cs.takeWhile isDigitC).length
    if run < 6 then none
    else if cs.take 2 == ['0', '0'] then
      match cs.drop run with
      | [] => some run
      | c :: _ => if isWordC c then none else some run
    else none

/-! ### Monetary values, exactly, in integer cents

Every numeric token produced by the patterns above is a decimal numeral with at
most two fraction digits and magnitude below 10^12, so Python's
`float(tok.replace(',', ''))` comparisons against 0.01, 1.0, 100 and 999999999
agree exactly with comparison of the token's value in integer cents. -/

def stripCommas (cs : List Char) : List Char := cs.filter fun c => !(c == ',')

def digitVal (c : Char) : Nat := c.toNat - 48

def natOfDigits (cs : List Char) : Nat := cs.foldl (fun a c => 10 * a + digitVal c) 0

def fracVal : List Char → Nat
  | [] => 0
  | [c] => 10 * digitVal c
  | c1 :: c2 :: _ => 10 * digitVal c1 + digitVal c2

/-- Value in cents of a comma-free numeral `digits ['.' digits{0,2}]`
    (the shape of every comma-stripped token of the two monetary patterns);
    `none` on anything else. -/
def parseCentsOpt (cs : List Char) : Option Nat :=
  let ip := cs.takeWhile isDigitC
  let rest := cs.dropWhile isDigitC
  if ip.isEmpty then none
  else
    match rest with
    | [] => some (natOfDigits ip * 100)
    | '.' :: fr =>
      if fr.all isDigitC && decide (fr.length ≤ 2) then
        some (natOfDigits ip * 100 + fracVal fr)
      else none
    | _ => none

def tokCents (s : String) : Option Nat := parseCentsOpt (stripCommas s.toList)

/-- The validation filter `0.01 <= float(num.replace(',','')) <= 999999999`. -/
def validTok (s : String) : Bool :=
  match tokCents s with
  | some v => decide (1 ≤ v) && decide (v ≤ 99999999900)
  | none => false

/-- The materiality test `float(num.replace(',','')) >= 1.0`. -/
def materialTok (s : String) : Bool :=
  match tokCents s with
  | some v => decide (100 ≤ v)
  | none => false

/-- `num.replace(',', '')`. -/
def stripTok (s : String) : String := String.mk (stripCommas s.toList)

/-- `float(s.replace(',', ''))`, in cents, for the (possibly signed) money
    strings the pipeline produces; `none` models a raised `ValueError`. -/
def parseMoneyOpt (s : String) : Option Int :=
  match stripCommas s.toList with
  | '-' :: rest => (parseCentsOpt rest).map fun n => -(n : Int)
  | cs => (parseCentsOpt cs).map fun n => (n : Int)

/-- `float(txn['amount'].replace(',','')) if txn['amount'] else 0`. -/
def parseAmountOpt (s : String) : Option Int :=
  if s = "" then some 0 else parseMoneyOpt s

def pad2 (n : Nat) : String := if n < 10 then "0" ++ toString n else toString n

/-- `f"{x:.2f}"` for a nonnegative value given in cents. -/
def formatCents (n : Nat) : String := toString (n / 100) ++ "." ++ pad2 (n % 100)

/-! ### `datetime.strptime(s, '%d/%m/%Y')`

CPython compiles the format to the anchored regular expression
`(3[01]|[12]\d|0[1-9]|[1-9]| [1-9])/(1[0-2]|0[1-9]|[1-9])/(\d\d\d\d)`
(note the blank-padded day alternative), requires it to consume the whole
string, and then lets the `datetime` constructor validate the day against
the month length (with leap years) and the year against `MINYEAR = 1`. -/

def isLeapY (y : Nat) : Bool := y % 4 == 0 && (!(y % 100 == 0) || y % 400 == 0)

def monthLen (y m : Nat) : Nat :=
  if m == 2 then (if isLeapY y then 29 else 28)
  else if m == 4 || m == 6 || m == 9 || m == 11 then 30
  else 31

/-- The `%d` component: its accepted forms and its value. -/
def dayVal (cs : List Char) : Option Nat :=
  match cs with
  | [' ', c] => if isDigitC c && !(c == '0') then some (digitVal c) else none
  | _ =>
    if cs.all isDigitC && decide (1 ≤ cs.length) && decide (cs.length ≤ 2) &&
        decide (1 ≤ natOfDigits cs) && decide (natOfDigits cs ≤ 31) then
      some (natOfDigits cs)
    else none

/-- The `%m` component. -/
def monthVal (cs : List Char) : Option Nat :=
  if cs.all isDigitC && decide (1 ≤ cs.length) && decide (cs.length ≤ 2) &&
      decide (1 ≤ natOfDigits cs) && decide (natOfDigits cs ≤ 12) then
    some (natOfDigits cs)
  else none

/-- `datetime.strptime(s, '%d/%m/%Y')` as `(year, month, day)`; `none` models
    a raised `ValueError`. -/
def parseDate (s : String) : Option (Nat × Nat × Nat) :=
  match splitSlash s.toList with
  | [ds, ms, ys] =>
    match dayVal ds, monthVal ms with
    | some d, some m =>
      if ys.all isDigitC && decide (ys.length = 4) && decide (1 ≤ natOfDigits ys) &&
          decide (d ≤ monthLen (natOfDigits ys) m) then
        some (natOfDigits ys, m, d)
      else none
    | _, _ => none
  | _ => none

/-! ### The data model -/

/-- One transaction record, exactly the dict the source builds. -/
structure Txn where
  date : String
  description : String
  amount : String
  balance : String
deriving DecidableEq, Repr

/-- The keyword configuration held by `BankStatementParser.__init__`. -/
structure Config where
  creditKeywords : List String
  debitKeywords : List String
deriving Repr

def isCredit (cfg : Config) (desc : String) : Bool :=
  cfg.creditKeywords.any fun k => containsCs k.toList (toLowerCs desc.toList)

/-- The keyword lists of `app.py`. -/
def defaultConfig : Config where
  creditKeywords :=
    ["batch dep", "deposit", "business", "herd2", "herd", "netsurit",
     "top vending rebate", "merch discount", "reversal",
     "transfer in", "credit", "salary", "refund", "merch d"]
  debitKeywords :=
    ["fee", "service", "maintenance", "charge", "interest", "pnp",
     "vodacom", "mtn", "savoy liquors", "soccer", "flm norwood",
     "current ac", "yoco", "centracom", "ankerdata", "jpc",
     "instant payment", "disputed debit", "builders exp", "checkers",
     "vets pantry", "montrose plumbing", "discovery life", "absa bond",
     "sandringham vet", "woolworths", "dis-chem", "multichoice",
     "atm", "withdrawal", "debit order"]

/-! ### `app.py  _parse_transaction_line` -/

def skipPhrasesLine : List String :=
  ["statement period", "total pages", "balance brought forward",
   "balance carried forward", "statementperiod", "totalpages"]

def skipPhrasesClean : List String :=
  ["statement period", "total pages", "statementperiod", "totalpages"]

/-- `line.replace(date_match.group(0), '').strip()`. -/
def remainderOf (line : String) (dstr : List Char) : List Char :=
  trimCs (replaceAll line.toList dstr [])

/-- Strict two-decimal tokens, falling back to the loose pattern when none match. -/
def tokensOf (cs : List Char) : List String :=
  let strict := findAllStrict cs
  if strict.isEmpty then findAllLoose cs else strict

/-- Zero-padding of the matched date's day and month. -/
def normalizeDate (dstr : List Char) : String :=
  match splitSlash dstr with
  | [d, m, y] => String.mk (zfill2 d ++ '/' :: (zfill2 m ++ '/' :: y))
  | _ => String.mk dstr

/-- The description-building block: remove every matched numeric token, strip
    long digit codes, strip punctuation except hyphens, collapse whitespace,
    and fall back to `"Transaction"` when fewer than two characters remain. -/
def buildDesc (remainder : List Char) (numbers : List String) : String :=
  let d1 := numbers.foldl (fun acc n => replaceAll acc n.toList [' ']) remainder
  let d2 := subAllAux matchRun6At d1.length false d1
  let d3 := subAllAux matchRun00At d2.length false d2
  let d4 := d3.map fun c => if isWordC c || isSpaceC c || c == '-' then c else ' '
  let d5 := joinWords (splitWordsCs d4)
  if d5.isEmpty || decide ((trimCs d5).length < 2) then "Transaction" else String.mk d5

/-- `app.py  BankStatementParser._parse_transaction_line`. -/
def parseTransactionLine (cfg : Config) (line : String) : Option Txn :=
  match searchDateCs line.toList with
  | none => none
  | some dstr =>
    let date := normalizeDate dstr
    let remainder := remainderOf line dstr
    if skipPhrasesLine.any (fun p => containsCs p.toList (toLowerCs remainder)) then none
    else
      let numbers := tokensOf remainder
      let filtered := numbers.filter validTok
      match filtered.getLast? with
      | none => none
      | some lastTok =>
        let desc := buildDesc remainder numbers
        let amount :=
          if 2 ≤ filtered.length then
            match filtered.dropLast.find? materialTok with
            | some t => if isCredit cfg desc then stripTok t else "-" ++ stripTok t
            | none => ""
          else ""
        some { date := date, description := String.mk (trimCs desc.toList),
               amount := amount, balance := stripTok lastTok }

/-! ### Deduplicator & Sequencer -/

/-- `f"{txn['date']}_{txn['description'][:20]}_{txn['balance']}"`. -/
def keyOf (t : Txn) : String :=
  t.date ++ "_" ++ String.mk (t.description.toList.take 20) ++ "_" ++ t.balance

def skipDesc (t : Txn) : Bool :=
  skipPhrasesClean.any fun p => containsCs p.toList (toLowerCs t.description.toList)

/-- One step of the `app.py` deduplication loop (with its extra skip-phrase filter). -/
def dedupStepApp (st : List String × List Txn) (t : Txn) : List String × List Txn :=
  if skipDesc t then st
  else if !(st.1.contains (keyOf t)) && !(t.date == "") && !(t.description == "") then
    (keyOf t :: st.1, st.2 ++ [t])
  else st

def dedupApp (l : List Txn) : List Txn := (l.foldl dedupStepApp ([], [])).2

/-- One step of the `app-v2.py` deduplication loop. -/
def dedupStepV2 (st : List String × List Txn) (t : Txn) : List String × List Txn :=
  if !(st.1.contains (keyOf t)) && !(t.date == "") && !(t.description == "") then
    (keyOf t :: st.1, st.2 ++ [t])
  else st

def dedupV2 (l : List Txn) : List Txn := (l.foldl dedupStepV2 ([], [])).2

/-- The calendar key `datetime` objects are compared by (year, month, day,
    packed injectively); records whose dates fail to parse never reach a
    comparison, because the sort is skipped. -/
def dateKey (t : Txn) : Nat :=
  match parseDate t.date with
  | some (y, m, d) => y * 10000 + m * 100 + d
  | none => 0

def dLe (a b : Txn) : Prop := dateKey a ≤ dateKey b

instance : DecidableRel dLe := fun _ _ => Nat.decLe _ _

instance : IsTotal Txn dLe := ⟨fun _ _ => Nat.le_total _ _⟩

instance : IsTrans Txn dLe := ⟨fun _ _ _ => Nat.le_trans⟩

/-- `try: sort(key=strptime) except: pass`: CPython computes all sort keys
    before moving any element, so a `ValueError` on any date leaves the list
    in its original order; otherwise the sort is stable, hence extensionally
    equal to insertion sort by the same total preorder. -/
def sortByDate (l : List Txn) : List Txn :=
  if l.all (fun t => (parseDate t.date).isSome) then List.insertionSort dLe l else l

/-- `'opening balance' in txn['description'].lower()`. -/
def isOpening (t : Txn) : Bool :=
  containsCs ("opening balance".toList) (toLowerCs t.description.toList)

/-- The inferred-opening-balance block of `app-v2.py  _clean_and_format_transactions`
    (lines 339-359). -/
def synthOpening (l : List Txn) : List Txn :=
  if l.any isOpening then l
  else
    match l with
    | [] => []
    | first :: _ =>
      match parseMoneyOpt first.balance, parseAmountOpt first.amount with
      | some b, some a =>
        if 0 < b - a then
          { date := first.date, description := "Opening balance", amount := "",
            balance := formatCents (b - a).toNat } :: l
        else l
      | _, _ => l

/-- The ensure-opening-balance-first block of `app-v2.py` (lines 361-376): keep the
    first record whose description contains "opening balance", drop the other such
    records, and put the kept one in front. -/
def moveOpeningFirst (l : List Txn) : List Txn :=
  (match l.find? isOpening with
   | some o => [o]
   | none => []) ++ l.filter fun t => !isOpening t

/-- `app-v2.py  _clean_and_format_transactions`. -/
def cleanAndFormatV2 (l : List Txn) : List Txn :=
  moveOpeningFirst (synthOpening (sortByDate (dedupV2 l)))

/-- `app.py  _clean_and_format_transactions`. -/
def cleanAndFormatApp (l : List Txn) : List Txn :=
  sortByDate (dedupApp l)

/-! ### Specification-side definitions

These restate parts of the claims in direct recursive form, to be compared
with the accumulator-style translations of the source loops above. -/

/-- Deduplication as the spec describes the `app.py` variant: walk the stream,
    rejecting a record whose description carries a boilerplate skip phrase,
    whose key was already seen, or whose date or description is empty. -/
def dedupSpecApp (seen : List String) : List Txn → List Txn
  | [] => []
  | t :: ts =>
    if skipDesc t || seen.contains (keyOf t) || t.date == "" || t.description == "" then
      dedupSpecApp seen ts
    else t :: dedupSpecApp (keyOf t :: seen) ts

/-- Deduplication as the spec describes the `app-v2.py` variant. -/
def dedupSpecV2 (seen : List String) : List Txn → List Txn
  | [] => []
  | t :: ts =>
    if seen.contains (keyOf t) || t.date == "" || t.description == "" then
      dedupSpecV2 seen ts
    else t :: dedupSpecV2 (keyOf t :: seen) ts

/-- Valuation, in signed cents, of an output amount string (used to state the
    sign law; a leading minus negates the numeral after it). -/
def moneyVal (s : String) : Int :=
  if s.toList.head? = some '-' then -(((parseCentsOpt (s.toList.drop 1)).getD 0 : Nat) : Int)
  else ((parseCentsOpt s.toList).getD 0 : Int)

/-- A fixed two-decimal-place decimal string: it ends with a point followed by
    exactly two digits. -/
def twoDecimalStr (s : String) : Bool :=
  match s.toList.dropWhile (fun c => !(c == '.')) with
  | ['.', a, b] => isDigitC a && isDigitC b
  | _ => false

/-- Number of characters after the first decimal point (0 when there is none). -/
def fracLen (s : String) : Nat :=
  ((s.toList.dropWhile fun c => !(c == '.')).drop 1).length

def noComma (s : String) : Prop := ',' ∉ s.toList

/-! ### Helper lemmas: the deduplication loops -/

theorem foldl_dedupStepV2 (l : List Txn) (seen : List String) (acc : List Txn) :
    (l.foldl dedupStepV2 (seen, acc)).2 = acc ++ dedupSpecV2 seen l := by
  induction l generalizing seen acc with
  | nil => simp [dedupSpecV2]
  | cons t ts ih =>
    simp only [List.foldl_cons, dedupSpecV2, dedupStepV2]
    rcases hsk : seen.contains (keyOf t) with _ | _ <;>
      rcases hd : t.date == "" with _ | _ <;>
        rcases hde : t.description == "" with _ | _ <;>
          simp [hsk, hd, hde, ih]

theorem dedupV2_eq_spec (l : List Txn) : dedupV2 l = dedupSpecV2 [] l := by
  simpa using foldl_dedupStepV2 l [] []

theorem foldl_dedupStepApp (l : List Txn) (seen : List String) (acc : List Txn) :
    (l.foldl dedupStepApp (seen, acc)).2 = acc ++ dedupSpecApp seen l := by
  induction l generalizing seen acc with
  | nil => simp [dedupSpecApp]
  | cons t ts ih =>
    simp only [List.foldl_cons, dedupSpecApp, dedupStepApp]
    rcases hs : skipDesc t with _ | _ <;>
      rcases hsk : seen.contains (keyOf t) with _ | _ <;>
        rcases hd : t.date == "" with _ | _ <;>
          rcases hde : t.description == "" with _ | _ <;>
            simp [hs, hsk, hd, hde, ih]

theorem dedupApp_eq_spec (l : List Txn) : dedupApp l = dedupSpecApp [] l := by
  simpa using foldl_dedupStepApp l [] []

theorem dedupSpecV2_sublist (seen : List String) (l : List Txn) :
    (dedupSpecV2 seen l).Sublist l := by
  induction l generalizing seen with
  | nil => simp [dedupSpecV2]
  | cons t ts ih =>
    rw [dedupSpecV2]
    split
    · exact (ih seen).cons t
    · exact (ih (keyOf t :: seen)).cons₂ t

theorem dedupSpecApp_sublist (seen : List String) (l : List Txn) :
    (dedupSpecApp seen l).Sublist l := by
  induction l generalizing seen with
  | nil => simp [dedupSpecApp]
  | cons t ts ih =>
    rw [dedupSpecApp]
    split
    · exact (ih seen).cons t
    · exact (ih (keyOf t :: seen)).cons₂ t

/-- Every survivor of the `app-v2.py` deduplication has non-empty date and
    description, and its key is new relative to the starting `seen` set. -/
theorem mem_dedupSpecV2 (seen : List String) (l : List Txn) (t : Txn)
    (ht : t ∈ dedupSpecV2 seen l) :
    keyOf t ∉ seen ∧ t.date ≠ "" ∧ t.description ≠ "" := by
  induction l generalizing seen with
  | nil => simp [dedupSpecV2] at ht
  | cons u us ih =>
    rw [dedupSpecV2] at ht
    split at ht
    · exact ih seen ht
    · next hcond =>
      simp only [Bool.or_eq_true, not_or, Bool.not_eq_true, List.contains_eq_any_beq,
        List.any_eq_true, beq_iff_eq, not_exists, not_and, beq_eq_false_iff_ne, ne_eq] at hcond
      obtain ⟨⟨hc1, hc2⟩, hc3⟩ := hcond
      rcases List.mem_cons.1 ht with rfl | hmem
      · exact ⟨fun hmem2 => hc1 _ hmem2 rfl, hc2, hc3⟩
      · have h3 := ih (keyOf u :: seen) hmem
        exact ⟨fun hmem2 => h3.1 (List.mem_cons_of_mem _ hmem2), h3.2.1, h3.2.2⟩

theorem dedupSpecV2_pairwise (seen : List String) (l : List Txn) :
    (dedupSpecV2 seen l).Pairwise fun a b => keyOf a ≠ keyOf b := by
  induction l generalizing seen with
  | nil => simp [dedupSpecV2]
  | cons t ts ih =>
    rw [dedupSpecV2]
    split
    · exact ih seen
    · refine List.Pairwise.cons ?_ (ih (keyOf t :: seen))
      intro b hb hkey
      exact (mem_dedupSpecV2 _ _ _ hb).1 (by simp [← hkey])

theorem mem_dedupSpecApp (seen : List String) (l : List Txn) (t : Txn)
    (ht : t ∈ dedupSpecApp seen l) :
    keyOf t ∉ seen ∧ t.date ≠ "" ∧ t.description ≠ "" ∧ skipDesc t = false := by
  induction l generalizing seen with
  | nil => simp [dedupSpecApp] at ht
  | cons u us ih =>
    rw [dedupSpecApp] at ht
    split at ht
    · exact ih seen ht
    · next hcond =>
      simp only [Bool.or_eq_true, not_or, Bool.not_eq_true, List.contains_eq_any_beq,
        List.any_eq_true, beq_iff_eq, not_exists, not_and, beq_eq_false_iff_ne, ne_eq] at hcond
      obtain ⟨⟨⟨hc0, hc1⟩, hc2⟩, hc3⟩ := hcond
      rcases List.mem_cons.1 ht with rfl | hmem
      · exact ⟨fun hmem2 => hc1 _ hmem2 rfl, hc2, hc3, hc0⟩
      · have h4 := ih (keyOf u :: seen) hmem
        exact ⟨fun hmem2 => h4.1 (List.mem_cons_of_mem _ hmem2), h4.2.1, h4.2.2.1, h4.2.2.2⟩

theorem dedupSpecApp_pairwise (seen : List String) (l : List Txn) :
    (dedupSpecApp seen l).Pairwise fun a b => keyOf a ≠ keyOf b := by
  induction l generalizing seen with
  | nil => simp [dedupSpecApp]
  | cons t ts ih =>
    rw [dedupSpecApp]
    split
    · exact ih seen
    · refine List.Pairwise.cons ?_ (ih (keyOf t :: seen))
      intro b hb hkey
      exact (mem_dedupSpecApp _ _ _ hb).1 (by simp [← hkey])

/-- A stream of key-distinct records with non-empty dates and descriptions
    passes through the deduplication loop unchanged. -/
theorem dedupSpecV2_eq_self (l : List Txn)
    (hnd : ∀ t ∈ l, t.date ≠ "" ∧ t.description ≠ "")
    (hk : l.Pairwise fun a b => keyOf a ≠ keyOf b)
    (seen : List String) (hs : ∀ t ∈ l, keyOf t ∉ seen) :
    dedupSpecV2 seen l = l := by
  induction l generalizing seen with
  | nil => simp [dedupSpecV2]
  | cons t ts ih =>
    have hself := hnd t (List.mem_cons_self t ts)
    have hseen := hs t (List.mem_cons_self t ts)
    rw [dedupSpecV2, if_neg]
    · rw [ih (fun u hu => hnd u (List.mem_cons_of_mem t hu)) hk.of_cons _ ?_]
      intro u hu
      have hne : keyOf t ≠ keyOf u := (List.pairwise_cons.1 hk).1 u hu
      simp only [List.mem_cons, not_or]
      exact ⟨fun h => hne h.symm, hs u (List.mem_cons_of_mem t hu)⟩
    · simp only [Bool.or_eq_true, not_or, Bool.not_eq_true, List.contains_eq_any_beq,
        List.any_eq_true, beq_iff_eq, not_exists, not_and, beq_eq_false_iff_ne, ne_eq]
      exact ⟨⟨fun x hx hxx => hseen (hxx ▸ hx), hself.1⟩, hself.2⟩

/-! ### Helper lemmas: the date sort and the opening-balance reorder -/

theorem sortByDate_of_parses (l : List Txn) (h : ∀ t ∈ l, (parseDate t.date).isSome) :
    sortByDate l = List.insertionSort dLe l := by
  unfold sortByDate
  rw [if_pos (List.all_eq_true.2 h)]

theorem sortByDate_of_fail (l : List Txn) (t : Txn) (ht : t ∈ l)
    (h : parseDate t.date = none) : sortByDate l = l := by
  unfold sortByDate
  rw [if_neg]
  intro hall
  have := List.all_eq_true.1 hall t ht
  simp [h] at this

theorem mem_sortByDate {l : List Txn} {t : Txn} : t ∈ sortByDate l ↔ t ∈ l := by
  unfold sortByDate
  split
  · exact List.mem_insertionSort dLe
  · exact Iff.rfl

theorem sortByDate_sorted (l : List Txn) (h : ∀ t ∈ l, (parseDate t.date).isSome) :
    (sortByDate l).Pairwise dLe := by
  rw [sortByDate_of_parses l h]
  exact List.sorted_insertionSort dLe l

theorem sortByDate_perm (l : List Txn) : (sortByDate l).Perm l := by
  unfold sortByDate
  split
  · exact List.perm_insertionSort dLe l
  · exact List.Perm.refl l

theorem find?_orderedInsert_opening (o : Txn) (l : List Txn) (ho : isOpening o = true)
    (hl : ∀ t ∈ l, isOpening t = false) :
    (List.orderedInsert dLe o l).find? isOpening = some o := by
  induction l with
  | nil => simp [List.orderedInsert, List.find?, ho]
  | cons b t ih =>
    have hb := hl b (List.mem_cons_self b t)
    rw [List.orderedInsert]
    split
    · simp [List.find?, ho]
    · rw [List.find?]
      simp only [hb]
      exact ih fun u hu => hl u (List.mem_cons_of_mem b hu)

theorem filter_orderedInsert_opening (o : Txn) (l : List Txn) (ho : isOpening o = true)
    (hl : ∀ t ∈ l, isOpening t = false) :
    (List.orderedInsert dLe o l).filter (fun t => !isOpening t) = l := by
  induction l with
  | nil => simp [List.orderedInsert, ho]
  | cons b t ih =>
    have hb := hl b (List.mem_cons_self b t)
    have hfil : (b :: t).filter (fun t => !isOpening t) = b :: t :=
      List.filter_eq_self.2 fun u hu => by simp [hl u hu]
    rw [List.orderedInsert]
    split
    · rw [List.filter_cons_of_neg (by simp [ho]), hfil]
    · rw [List.filter_cons_of_pos (by simp [hb]), ih fun u hu => hl u (List.mem_cons_of_mem b hu)]

theorem moveOpeningFirst_of_none (l : List Txn) (h : ∀ t ∈ l, isOpening t = false) :
    moveOpeningFirst l = l := by
  unfold moveOpeningFirst
  rw [List.find?_eq_none.2 fun t ht => by simp [h t ht],
    List.filter_eq_self.2 fun t ht => by simp [h t ht]]
  rfl

/-- Among the records sharing one deduplication key, the loop retains exactly
    the first of the stream (provided dates and descriptions are non-empty, so
    that the key test alone decides). -/
theorem dedupSpecV2_filter_key (k : String) (l : List Txn) :
    ∀ seen, (∀ t ∈ l, t.date ≠ "" ∧ t.description ≠ "") →
      (dedupSpecV2 seen l).filter (fun t => keyOf t == k) =
        if k ∈ seen then [] else (l.filter (fun t => keyOf t == k)).take 1 := by
  induction l with
  | nil => intro seen _; by_cases hk : k ∈ seen <;> simp [dedupSpecV2, hk]
  | cons t ts ih =>
    intro seen h
    have hne := h t (List.mem_cons_self t ts)
    have hrest : ∀ u ∈ ts, u.date ≠ "" ∧ u.description ≠ "" :=
      fun u hu => h u (List.mem_cons_of_mem t hu)
    rw [dedupSpecV2]
    by_cases hkt : keyOf t ∈ seen
    · rw [if_pos (by simp [hkt]), ih seen hrest]
      by_cases hk : k ∈ seen
      · simp [hk]
      · have hne2 : (keyOf t == k) = false := by
          simp only [beq_eq_false_iff_ne, ne_eq]
          intro he
          exact hk (he ▸ hkt)
        rw [if_neg hk, if_neg hk, List.filter_cons_of_neg (by simp [hne2])]
    · rw [if_neg (by simp [hkt, hne.1, hne.2])]
      by_cases hek : keyOf t = k
      · have hkk : k ∉ seen := fun hc => hkt (hek ▸ hc)
        rw [List.filter_cons_of_pos (by simp [hek]), ih _ hrest,
          if_pos (by simp [hek]), if_neg hkk,
          List.filter_cons_of_pos (by simp [hek])]
        rfl
      · have hcons : (k ∈ keyOf t :: seen) ↔ k ∈ seen := by
          constructor
          · intro hc
            rcases List.mem_cons.1 hc with rfl | hc2
            · exact absurd rfl hek
            · exact hc2
          · exact fun hc => List.mem_cons_of_mem _ hc
        rw [List.filter_cons_of_neg (by simp [hek]), ih _ hrest,
          List.filter_cons_of_neg (by simp [hek])]
        by_cases hk : k ∈ seen
        · rw [if_pos (hcons.2 hk), if_pos hk]
        · rw [if_neg (fun hc => hk (hcons.1 hc)), if_neg hk]

/-! ## Claim C5

The claim says the `app.py` Deduplicator rejects a record exactly when its
composite key was already seen or its date or description is empty.  The code
additionally rejects records whose description carries a boilerplate skip
phrase, so the claim is corrected. -/

/-- C5 counterexample: a record with non-empty date and description and a fresh
    key is nevertheless rejected by the `app.py` deduplication loop, because
    its description contains the skip phrase "total pages". -/
theorem c5_counterexample :
    dedupApp [⟨"01/01/2023", "total pages 3", "", "5.00"⟩] = [] ∧
      ("01/01/2023" : String) ≠ "" ∧ ("total pages 3" : String) ≠ "" := by
  refine ⟨?_, by decide, by decide⟩
  rfl

/-- C5 (amended): the `app.py` Deduplicator rejects a record exactly when its
    description contains a boilerplate skip phrase, or its composite key
    (normalized date, 20-character description prefix, balance string) was
    already seen, or its date or description is empty — `dedupSpecApp` states
    this rejection rule directly — and in the surviving output no two records
    share a key and every record has non-empty date and description. -/
theorem c5_theorem (l : List Txn) :
    dedupApp l = dedupSpecApp [] l ∧
      (∀ t ∈ dedupApp l, t.date ≠ "" ∧ t.description ≠ "" ∧ skipDesc t = false) ∧
      (dedupApp l).Pairwise (fun a b => keyOf a ≠ keyOf b) := by
  refine ⟨dedupApp_eq_spec l, ?_, ?_⟩
  · intro t ht
    rw [dedupApp_eq_spec] at ht
    have h4 := mem_dedupSpecApp [] l t ht
    exact ⟨h4.2.1, h4.2.2.1, h4.2.2.2⟩
  · rw [dedupApp_eq_spec]
    exact dedupSpecApp_pairwise [] l

/-! ## Claim C8

On a date-parse failure the sort is skipped, so the `app.py` sequencer
returns the records exactly in post-deduplication insertion order. -/

/-- C8: if some deduplicated record's date fails to parse as DD/MM/YYYY, the
    final output equals the deduplicated list itself (insertion order), and no
    exception propagates (the function is total). -/
theorem c8_theorem (l : List Txn)
    (h : ∃ t ∈ dedupApp l, parseDate t.date = none) :
    cleanAndFormatApp l = dedupApp l := by
  obtain ⟨t, ht, hfail⟩ := h
  unfold cleanAndFormatApp
  exact sortByDate_of_fail _ t ht hfail

/-- C8 witness: a concrete record set with an unparseable date comes back in
    insertion order. -/
theorem c8_witness :
    (∃ t ∈ dedupApp [⟨"bad", "b1", "", "1.00"⟩, ⟨"01/01/2023", "b2", "", "2.00"⟩],
        parseDate t.date = none) ∧
      cleanAndFormatApp [⟨"bad", "b1", "", "1.00"⟩, ⟨"01/01/2023", "b2", "", "2.00"⟩] =
        dedupApp [⟨"bad", "b1", "", "1.00"⟩, ⟨"01/01/2023", "b2", "", "2.00"⟩] :=
  ⟨by decide, c8_theorem _ (by decide)⟩

/-! ## Claim C9

`_is_credit` consults only the credit-keyword list; the debit-keyword list is
dead configuration, so outputs cannot depend on it. -/

/-- C9: two configurations that agree on the credit keywords and differ
    arbitrarily in the debit keywords produce identical parses and identical
    final outputs on every input — the classifier never reads the
    debit-keyword list. -/
theorem c9_theorem (c d1 d2 : List String) (lines : List String) :
    lines.filterMap (parseTransactionLine ⟨c, d1⟩) =
        lines.filterMap (parseTransactionLine ⟨c, d2⟩) ∧
      cleanAndFormatApp (lines.filterMap (parseTransactionLine ⟨c, d1⟩)) =
        cleanAndFormatApp (lines.filterMap (parseTransactionLine ⟨c, d2⟩)) :=
  ⟨rfl, rfl⟩

/-! ## Claim C10

The claim is stated for arbitrary records; a key-sharing record whose date is
empty is rejected without registering its key, so "exactly the first is
retained" fails on such inputs and the claim is corrected by restricting to
records with non-empty date and description. -/

/-- C10 counterexample: two records share a key, yet the Deduplicator retains
    neither (their dates are empty), where the claim demands the first. -/
theorem c10_counterexample :
    (dedupV2 [⟨"", "ab", "", "5"⟩, ⟨"", "ab", "", "5"⟩]).filter
        (fun t => keyOf t == keyOf ⟨"", "ab", "", "5"⟩) = [] ∧
      (([⟨"", "ab", "", "5"⟩, ⟨"", "ab", "", "5"⟩] : List Txn).filter
          (fun t => keyOf t == keyOf ⟨"", "ab", "", "5"⟩)).take 1 =
        [⟨"", "ab", "", "5"⟩] := by
  constructor
  · rfl
  · rfl

/-- C10 (amended): for a stream of records with non-empty dates and
    descriptions, the records surviving with any given key are exactly the
    first of the stream bearing that key, and the survivors always form a
    subsequence of the input in original order. -/
theorem c10_theorem (l : List Txn) (k : String)
    (h : ∀ t ∈ l, t.date ≠ "" ∧ t.description ≠ "") :
    (dedupV2 l).filter (fun t => keyOf t == k) =
        (l.filter (fun t => keyOf t == k)).take 1 ∧
      (dedupV2 l).Sublist l := by
  constructor
  · rw [dedupV2_eq_spec, dedupSpecV2_filter_key k l [] h]
    simp
  · rw [dedupV2_eq_spec]
    exact dedupSpecV2_sublist [] l

/-- C10 witness: of three records where the first and third share a key, only
    the first survives, and the survivors are a subsequence of the input. -/
theorem c10_witness :
    (∀ t ∈ [(⟨"01/01/2023", "abc", "", "9.00"⟩ : Txn),
        ⟨"02/01/2023", "other", "", "7.00"⟩,
        ⟨"01/01/2023", "abc", "-1.00", "9.00"⟩], t.date ≠ "" ∧ t.description ≠ "") ∧
      ((dedupV2 [⟨"01/01/2023", "abc", "", "9.00"⟩,
            ⟨"02/01/2023", "other", "", "7.00"⟩,
            ⟨"01/01/2023", "abc", "-1.00", "9.00"⟩]).filter
          (fun t => keyOf t == keyOf ⟨"01/01/2023", "abc", "", "9.00"⟩) =
          ([⟨"01/01/2023", "abc", "", "9.00"⟩,
            ⟨"02/01/2023", "other", "", "7.00"⟩,
            ⟨"01/01/2023", "abc", "-1.00", "9.00"⟩].filter
            (fun t => keyOf t == keyOf ⟨"01/01/2023", "abc", "", "9.00"⟩)).take 1 ∧
        (dedupV2 [⟨"01/01/2023", "abc", "", "9.00"⟩,
            ⟨"02/01/2023", "other", "", "7.00"⟩,
            ⟨"01/01/2023", "abc", "-1.00", "9.00"⟩]).Sublist
          [⟨"01/01/2023", "abc", "", "9.00"⟩,
            ⟨"02/01/2023", "other", "", "7.00"⟩,
            ⟨"01/01/2023", "abc", "-1.00", "9.00"⟩]) :=
  ⟨by decide, c10_theorem _ _ (by decide)⟩

/-! ## Claim C6

The inferred-opening-balance fallback of `app-v2.py`. -/

/-- C6: when no opening-balance record survives into the deduplicated, sorted,
    non-empty record set, and the first record's balance parses to `b` cents
    and its amount to `a` cents (0 when absent), the pipeline prepends
    `{date := first.date, description := "Opening balance", amount := "",
    balance := b - a}` exactly when `b - a > 0`, and otherwise returns the set
    unchanged. -/
theorem c6_theorem (l : List Txn) (first : Txn) (rest : List Txn) (b a : Int)
    (hs : sortByDate (dedupV2 l) = first :: rest)
    (hno : ∀ t ∈ first :: rest, isOpening t = false)
    (hb : parseMoneyOpt first.balance = some b)
    (ha : parseAmountOpt first.amount = some a) :
    cleanAndFormatV2 l =
      if 0 < b - a then
        ({ date := first.date, description := "Opening balance", amount := "",
           balance := formatCents (b - a).toNat } : Txn) :: first :: rest
      else first :: rest := by
  have hany : ¬ ((first :: rest).any isOpening = true) := by
    rw [List.any_eq_true]
    rintro ⟨x, hx, hpx⟩
    rw [hno x hx] at hpx
    cases hpx
  unfold cleanAndFormatV2
  rw [hs]
  unfold synthOpening
  rw [if_neg hany]
  simp only [hb, ha]
  by_cases hba : 0 < b - a
  · rw [if_pos hba]
    have hopen : isOpening
        ({ date := first.date, description := "Opening balance", amount := "",
           balance := formatCents (b - a).toNat } : Txn) = true := by
      unfold isOpening
      rfl
    unfold moveOpeningFirst
    rw [List.find?_cons_of_pos _ hopen, List.filter_cons_of_neg (by simp [hopen]),
      List.filter_eq_self.2 fun u hu => by simp [hno u hu]]
    rfl
  · rw [if_neg hba]
    exact moveOpeningFirst_of_none _ hno

/-- C6 witness: Scenario D — the first sorted record has balance 1000.00 and
    amount 200.00, so an opening-balance record of 800.00 is prepended. -/
theorem c6_witness :
    sortByDate (dedupV2 [⟨"01/01/2023", "first", "200.00", "1000.00"⟩]) =
        [⟨"01/01/2023", "first", "200.00", "1000.00"⟩] ∧
      (∀ t ∈ [(⟨"01/01/2023", "first", "200.00", "1000.00"⟩ : Txn)], isOpening t = false) ∧
      parseMoneyOpt "1000.00" = some 100000 ∧
      parseAmountOpt "200.00" = some 20000 ∧
      cleanAndFormatV2 [⟨"01/01/2023", "first", "200.00", "1000.00"⟩] =
        if 0 < (100000 : Int) - 20000 then
          ({ date := "01/01/2023", description := "Opening balance", amount := "",
             balance := formatCents ((100000 : Int) - 20000).toNat } : Txn) ::
            [⟨"01/01/2023", "first", "200.00", "1000.00"⟩]
        else [⟨"01/01/2023", "first", "200.00", "1000.00"⟩] :=
  ⟨by decide, by decide, by decide, by decide,
    c6_theorem [⟨"01/01/2023", "first", "200.00", "1000.00"⟩]
      ⟨"01/01/2023", "first", "200.00", "1000.00"⟩ [] 100000 20000
      (by decide) (by decide) (by decide) (by decide)⟩

/-! ### Inversion of `_parse_transaction_line`

`lineTokens` and `lineDesc` name the function's intermediate values
`filtered_numbers` and `description`; the inversion lemma recovers, from a
successful parse, how each output field was computed from them. -/

/-- The `filtered_numbers` list of `_parse_transaction_line` for a line whose
    date matched `dstr`. -/
def lineTokens (line : String) (dstr : List Char) : List String :=
  (tokensOf (remainderOf line dstr)).filter validTok

/-- The cleaned `description` of `_parse_transaction_line`. -/
def lineDesc (line : String) (dstr : List Char) : String :=
  buildDesc (remainderOf line dstr) (tokensOf (remainderOf line dstr))

theorem parseTransactionLine_spec (cfg : Config) (line : String) (r : Txn)
    (h : parseTransactionLine cfg line = some r) :
    ∃ dstr lastTok,
      searchDateCs line.toList = some dstr ∧
      (lineTokens line dstr).getLast? = some lastTok ∧
      r.date = normalizeDate dstr ∧
      r.description = String.mk (trimCs (lineDesc line dstr).toList) ∧
      r.balance = stripTok lastTok ∧
      r.amount = (if 2 ≤ (lineTokens line dstr).length then
          match (lineTokens line dstr).dropLast.find? materialTok with
          | some t =>
            if isCredit cfg (lineDesc line dstr) then stripTok t else "-" ++ stripTok t
          | none => ""
        else "") := by
  unfold parseTransactionLine at h
  cases hsd : searchDateCs line.toList with
  | none => rw [hsd] at h; exact absurd h (by simp)
  | some dstr =>
    rw [hsd] at h
    simp only at h
    split at h
    · exact absurd h (by simp)
    · cases hlast : (lineTokens line dstr).getLast? with
      | none =>
        rw [show ((tokensOf (remainderOf line dstr)).filter validTok).getLast? =
            (lineTokens line dstr).getLast? from rfl, hlast] at h
        exact absurd h (by simp)
      | some lastTok =>
        rw [show ((tokensOf (remainderOf line dstr)).filter validTok).getLast? =
            (lineTokens line dstr).getLast? from rfl, hlast] at h
        refine ⟨dstr, lastTok, rfl, hlast, ?_⟩
        obtain rfl : _ = r := Option.some.injEq _ _ ▸ h
        exact ⟨rfl, rfl, rfl, rfl⟩

/-! ## Claim C1

The claim says the pre-balance tokens are scanned starting from the token
nearest the balance, moving right to left.  The loop
`for num in filtered_numbers[:-1]` walks the pre-balance tokens left to
right, so on a line with two material pre-balance tokens the code picks the
leftmost, not the one nearest the balance; the claim is corrected. -/

/-- C1 counterexample: on `"01/02/2023 Shop 5.00 10.00 100.00"` the validated
    tokens are 5.00, 10.00, 100.00; the balance is the last (100.00), and the
    claimed right-to-left scan would pick magnitude 10.00 (amount "-10.00"),
    but the code emits "-5.00" — the leftmost token at or above the
    threshold. -/
theorem c1_counterexample :
    parseTransactionLine defaultConfig "01/02/2023 Shop 5.00 10.00 100.00" =
        some ⟨"01/02/2023", "Shop", "-5.00", "100.00"⟩ ∧
      ("-5.00" : String) ≠ "-10.00" :=
  ⟨rfl, by decide⟩

/-- C1 (amended): for every parsed line, the balance is the last validated
    token, and when at least two validated tokens remain the
    transaction-amount magnitude is the first token at or above the
    materiality threshold (1.0) scanning the pre-balance tokens left to right
    (`List.find?` order), signed by the classifier. -/
theorem c1_theorem (cfg : Config) (line : String) (r : Txn)
    (h : parseTransactionLine cfg line = some r) :
    ∃ dstr, searchDateCs line.toList = some dstr ∧
      lineTokens line dstr ≠ [] ∧
      r.balance = stripTok ((lineTokens line dstr).getLast?.getD "") ∧
      (2 ≤ (lineTokens line dstr).length →
        match (lineTokens line dstr).dropLast.find? materialTok with
        | some t =>
          r.amount = if isCredit cfg (lineDesc line dstr) then stripTok t else "-" ++ stripTok t
        | none => r.amount = "") := by
  obtain ⟨dstr, lastTok, hsd, hlast, _, _, hbal, hamt⟩ :=
    parseTransactionLine_spec cfg line r h
  refine ⟨dstr, hsd, ?_, ?_, ?_⟩
  · intro hnil
    rw [hnil] at hlast
    cases hlast
  · rw [hlast]
    exact hbal
  · intro h2
    cases hf : (lineTokens line dstr).dropLast.find? materialTok with
    | some t => rw [hamt, if_pos h2, hf]
    | none => rw [hamt, if_pos h2, hf]

/-- C1 witness: Scenario B, `"05/03/2023 PnP Norwood 45.50 1,004.48"`. -/
theorem c1_witness :
    parseTransactionLine defaultConfig "05/03/2023 PnP Norwood 45.50 1,004.48" =
        some ⟨"05/03/2023", "PnP Norwood", "-45.50", "1004.48"⟩ ∧
      (∃ dstr, searchDateCs ("05/03/2023 PnP Norwood 45.50 1,004.48" : String).toList =
          some dstr ∧
        lineTokens "05/03/2023 PnP Norwood 45.50 1,004.48" dstr ≠ [] ∧
        (⟨"05/03/2023", "PnP Norwood", "-45.50", "1004.48"⟩ : Txn).balance =
          stripTok ((lineTokens "05/03/2023 PnP Norwood 45.50 1,004.48" dstr).getLast?.getD "") ∧
        (2 ≤ (lineTokens "05/03/2023 PnP Norwood 45.50 1,004.48" dstr).length →
          match (lineTokens "05/03/2023 PnP Norwood 45.50 1,004.48" dstr).dropLast.find?
              materialTok with
          | some t =>
            (⟨"05/03/2023", "PnP Norwood", "-45.50", "1004.48"⟩ : Txn).amount =
              if isCredit defaultConfig
                  (lineDesc "05/03/2023 PnP Norwood 45.50 1,004.48" dstr) then
                stripTok t
              else "-" ++ stripTok t
          | none => (⟨"05/03/2023", "PnP Norwood", "-45.50", "1004.48"⟩ : Txn).amount = "")) :=
  ⟨rfl, c1_theorem defaultConfig _ _ rfl⟩

/-! ### The cleaned description carries no leading or trailing whitespace,
    so the final `.strip()` is the identity on it. -/

theorem splitWordsAux_words (cs : List Char) :
    ∀ cur, (∀ c ∈ cur, isSpaceC c = false) →
      ∀ w ∈ splitWordsAux cur cs, w ≠ [] ∧ ∀ c ∈ w, isSpaceC c = false := by
  induction cs with
  | nil =>
    intro cur hcur w hw
    rw [splitWordsAux] at hw
    split at hw
    · simp at hw
    · next hne =>
      rcases List.mem_singleton.1 hw with rfl
      refine ⟨by simpa using hne, fun c hc => hcur c (by simpa using hc)⟩
  | cons c cs ih =>
    intro cur hcur w hw
    rw [splitWordsAux] at hw
    by_cases hsp : isSpaceC c = true
    · rw [if_pos hsp] at hw
      split at hw
      · exact ih [] (by simp) w hw
      · next hne =>
        rcases List.mem_cons.1 hw with rfl | hmem
        · refine ⟨by simpa using hne, fun d hd => hcur d (by simpa using hd)⟩
        · exact ih [] (by simp) w hmem
    · rw [if_neg hsp] at hw
      refine ih (c :: cur) ?_ w hw
      intro d hd
      rcases List.mem_cons.1 hd with rfl | hmem
      · exact Bool.not_eq_true _ ▸ hsp
      · exact hcur d hmem

theorem dropWhile_space_eq_self (l : List Char)
    (h : ∀ c, l.head? = some c → isSpaceC c = false) : l.dropWhile isSpaceC = l := by
  cases l with
  | nil => rfl
  | cons c t =>
    rw [List.dropWhile_cons, h c rfl]
    simp

theorem trimCs_eq_self (l : List Char)
    (hh : ∀ c, l.head? = some c → isSpaceC c = false)
    (hl : ∀ c, l.getLast? = some c → isSpaceC c = false) : trimCs l = l := by
  unfold trimCs
  rw [dropWhile_space_eq_self l hh,
    dropWhile_space_eq_self l.reverse (fun c hc => hl c (by rwa [List.head?_reverse] at hc)),
    List.reverse_reverse]

theorem joinWords_ne_nil (w : List Char) (ws : List (List Char)) (hw : w ≠ []) :
    joinWords (w :: ws) ≠ [] := by
  cases ws with
  | nil => simpa [joinWords] using hw
  | cons v vs =>
    have hjoin : joinWords (w :: v :: vs) = w ++ ' ' :: joinWords (v :: vs) := rfl
    rw [hjoin]
    simp

theorem head?_joinWords (w : List Char) (ws : List (List Char)) (hw : w ≠ []) :
    (joinWords (w :: ws)).head? = w.head? := by
  cases ws with
  | nil => rfl
  | cons v vs =>
    have hjoin : joinWords (w :: v :: vs) = w ++ ' ' :: joinWords (v :: vs) := rfl
    rw [hjoin, List.head?_append]
    cases w with
    | nil => exact absurd rfl hw
    | cons c t => rfl

theorem getLast?_joinWords (w : List Char) (ws : List (List Char))
    (h : ∀ u ∈ w :: ws, u ≠ []) :
    ∃ u ∈ w :: ws, (joinWords (w :: ws)).getLast? = u.getLast? := by
  induction ws generalizing w with
  | nil => exact ⟨w, List.mem_singleton_self w, rfl⟩
  | cons v vs ih =>
    obtain ⟨u, hu, hlast⟩ := ih v fun x hx => h x (List.mem_cons_of_mem w hx)
    refine ⟨u, List.mem_cons_of_mem w hu, ?_⟩
    have hjoin : joinWords (w :: v :: vs) = w ++ ' ' :: joinWords (v :: vs) := rfl
    have hvne : joinWords (v :: vs) ≠ [] := joinWords_ne_nil v vs (h v (by simp))
    obtain ⟨d, ds, hjw⟩ : ∃ d ds, joinWords (v :: vs) = d :: ds := by
      cases hj : joinWords (v :: vs) with
      | nil => exact absurd hj hvne
      | cons d ds => exact ⟨d, ds, rfl⟩
    rw [hjw] at hlast
    rw [hjoin, hjw, List.getLast?_append, List.getLast?_cons_cons, hlast]
    cases hul : u.getLast? with
    | none =>
      have : u = [] := List.getLast?_eq_none_iff.1 hul
      exact absurd this (h u (List.mem_cons_of_mem w hu))
    | some e => rfl

/-- The join of the whitespace split is already stripped. -/
theorem trim_joinWords_splitWords (l : List Char) :
    trimCs (joinWords (splitWordsCs l)) = joinWords (splitWordsCs l) := by
  have hwords := splitWordsAux_words l [] (by simp)
  cases hws : splitWordsCs l with
  | nil => rfl
  | cons w ws =>
    have hws2 : splitWordsAux [] l = w :: ws := hws
    rw [hws2] at hwords
    have hw := hwords w (List.mem_cons_self w ws)
    rw [trimCs_eq_self]
    · intro c hc
      rw [head?_joinWords w ws hw.1] at hc
      exact hw.2 c (List.mem_of_mem_head? (by rw [hc]; rfl))
    · intro c hc
      obtain ⟨u, hu, hlast⟩ := getLast?_joinWords w ws fun x hx => (hwords x hx).1
      rw [hlast] at hc
      exact (hwords u hu).2 c (List.mem_of_getLast?_eq_some hc)

/-- `buildDesc` output is already stripped: the trailing `.strip()` in the
    record constructor does not change it. -/
theorem trim_buildDesc (rem : List Char) (nums : List String) :
    String.mk (trimCs (buildDesc rem nums).toList) = buildDesc rem nums := by
  simp only [buildDesc]
  split
  · rfl
  · exact congrArg String.mk (trim_joinWords_splitWords _)

/-! ### Valuation of the emitted amount strings -/

theorem parseCentsOpt_head (cs : List Char) (v : Nat) (h : parseCentsOpt cs = some v) :
    ∃ c cs2, cs = c :: cs2 ∧ isDigitC c = true := by
  simp only [parseCentsOpt] at h
  split at h
  · cases h
  · next hne =>
    cases cs with
    | nil => simp [List.takeWhile] at hne
    | cons c cs2 =>
      refine ⟨c, cs2, rfl, ?_⟩
      by_cases hd : isDigitC c = true
      · exact hd
      · rw [List.takeWhile_cons, if_neg (by simp [hd])] at hne
        simp at hne

theorem materialTok_val (s : String) (h : materialTok s = true) :
    ∃ v, parseCentsOpt (stripCommas s.toList) = some v ∧ 100 ≤ v := by
  unfold materialTok tokCents at h
  cases hc : parseCentsOpt (stripCommas s.toList) with
  | none => rw [hc] at h; cases h
  | some v =>
    rw [hc] at h
    exact ⟨v, rfl, by simpa using h⟩

theorem validTok_val (s : String) (h : validTok s = true) :
    ∃ v, parseCentsOpt (stripCommas s.toList) = some v ∧ 1 ≤ v ∧ v ≤ 99999999900 := by
  unfold validTok tokCents at h
  cases hc : parseCentsOpt (stripCommas s.toList) with
  | none => rw [hc] at h; cases h
  | some v =>
    rw [hc] at h
    have h2 := h
    simp only [Bool.and_eq_true, decide_eq_true_eq] at h2
    exact ⟨v, rfl, h2.1, h2.2⟩

theorem stripTok_toList (s : String) : (stripTok s).toList = stripCommas s.toList := rfl

theorem moneyVal_strip (t : String) (v : Nat)
    (hv : parseCentsOpt (stripCommas t.toList) = some v) :
    moneyVal (stripTok t) = (v : Int) := by
  obtain ⟨c, cs2, hcs, hd⟩ := parseCentsOpt_head _ _ hv
  have hne : ¬ ((stripTok t).toList.head? = some '-') := by
    rw [stripTok_toList, hcs]
    intro heq
    have hcd : c = '-' := by simpa using heq
    rw [hcd] at hd
    exact absurd hd (by decide)
  unfold moneyVal
  rw [if_neg hne, stripTok_toList, hv]
  rfl

theorem moneyVal_neg (t : String) (v : Nat)
    (hv : parseCentsOpt (stripCommas t.toList) = some v) :
    moneyVal ("-" ++ stripTok t) = -(v : Int) := by
  have htl : ("-" ++ stripTok t).toList = '-' :: stripCommas t.toList := by
    show ("-" ++ stripTok t).data = _
    rw [String.data_append]
    rfl
  unfold moneyVal
  rw [htl, if_pos (show ('-' :: stripCommas t.toList).head? = some '-' from rfl)]
  show -(((parseCentsOpt (stripCommas t.toList)).getD 0 : Nat) : Int) = _
  rw [hv]
  rfl

/-! ## Claim C4

The sign law of the Credit/Debit Classifier over `app.py`'s line parser. -/

/-- C4: every emitted record with a present amount has a positive amount
    exactly when the cleaned description contains a credit keyword
    (case-insensitive substring), and a negative amount otherwise — debit is
    the default even when no debit keyword matches. -/
theorem c4_theorem (cfg : Config) (line : String) (r : Txn)
    (h : parseTransactionLine cfg line = some r) (hne : r.amount ≠ "") :
    (0 < moneyVal r.amount ↔ isCredit cfg r.description = true) ∧
      (isCredit cfg r.description = false → moneyVal r.amount < 0) := by
  obtain ⟨dstr, lastTok, hsd, hlast, _, hdesc, _, hamt⟩ :=
    parseTransactionLine_spec cfg line r h
  have hdesc2 : r.description = lineDesc line dstr := by
    rw [hdesc]
    exact trim_buildDesc _ _
  by_cases h2 : 2 ≤ (lineTokens line dstr).length
  · rw [if_pos h2] at hamt
    cases hf : (lineTokens line dstr).dropLast.find? materialTok with
    | none =>
      rw [hf] at hamt
      exact absurd (hamt.trans rfl) hne
    | some t =>
      rw [hf] at hamt
      have hamt2 : r.amount =
          if isCredit cfg (lineDesc line dstr) then stripTok t else "-" ++ stripTok t :=
        hamt.trans rfl
      obtain ⟨v, hv, hv100⟩ := materialTok_val t (List.find?_some hf)
      have hvpos : (0 : Int) < (v : Int) := by omega
      rw [hdesc2]
      by_cases hc : isCredit cfg (lineDesc line dstr) = true
      · rw [if_pos hc] at hamt2
        rw [hamt2, moneyVal_strip t v hv]
        exact ⟨⟨fun _ => hc, fun _ => hvpos⟩, fun hcf => absurd hc (by simp [hcf])⟩
      · rw [if_neg hc] at hamt2
        rw [hamt2, moneyVal_neg t v hv]
        refine ⟨⟨fun hlt => absurd hlt (by omega), fun hct => absurd hct hc⟩, fun _ => by omega⟩
  · rw [if_neg h2] at hamt
    exact absurd hamt hne

/-- C4 witness: Scenario A's credit line, whose description matches the credit
    keyword "herd2", yields a positive amount. -/
theorem c4_witness :
    parseTransactionLine defaultConfig "21/01/2023 Herd2 - 1213779758 2,000.00 4,549.98" =
        some ⟨"21/01/2023", "Herd2 -", "2000.00", "4549.98"⟩ ∧
      (⟨"21/01/2023", "Herd2 -", "2000.00", "4549.98"⟩ : Txn).amount ≠ "" ∧
      ((0 < moneyVal (⟨"21/01/2023", "Herd2 -", "2000.00", "4549.98"⟩ : Txn).amount ↔
          isCredit defaultConfig
            (⟨"21/01/2023", "Herd2 -", "2000.00", "4549.98"⟩ : Txn).description = true) ∧
        (isCredit defaultConfig
            (⟨"21/01/2023", "Herd2 -", "2000.00", "4549.98"⟩ : Txn).description = false →
          moneyVal (⟨"21/01/2023", "Herd2 -", "2000.00", "4549.98"⟩ : Txn).amount < 0)) :=
  ⟨rfl, by decide,
    c4_theorem defaultConfig "21/01/2023 Herd2 - 1213779758 2,000.00 4,549.98"
      ⟨"21/01/2023", "Herd2 -", "2000.00", "4549.98"⟩ rfl (by decide)⟩

/-! ## Claim C3

The fallback (loose) monetary pattern admits tokens without two decimal
places, so the "fixed two-decimal-place" part of the claim fails; the
"no thousands separators" part holds, and every output money string has at
most two digits after the decimal point. -/

theorem dropWhile_append_of_all (p : Char → Bool) (l1 l2 : List Char)
    (h : ∀ c ∈ l1, p c = true) : (l1 ++ l2).dropWhile p = l2.dropWhile p := by
  induction l1 with
  | nil => rfl
  | cons c t ih =>
    rw [List.cons_append, List.dropWhile_cons, if_pos (h c (List.mem_cons_self c t))]
    exact ih fun d hd => h d (List.mem_cons_of_mem c hd)

theorem digit_dot_ne (c : Char) (h : isDigitC c = true) : (!(c == '.')) = true := by
  by_cases hc : c = '.'
  · rw [hc] at h
    exact absurd h (by decide)
  · simp [hc]

/-- A numeral accepted by `parseCentsOpt` has at most two characters after its
    (first) decimal point. -/
theorem fracLen_of_parse (cs : List Char) (v : Nat) (h : parseCentsOpt cs = some v) :
    ((cs.dropWhile fun c => !(c == '.')).drop 1).length ≤ 2 := by
  have hsplit := List.takeWhile_append_dropWhile isDigitC (l := cs)
  have hdigits : ∀ c ∈ cs.takeWhile isDigitC, (!(c == '.')) = true :=
    fun c hc => digit_dot_ne c (List.mem_takeWhile_imp hc)
  simp only [parseCentsOpt] at h
  split at h
  · cases h
  · split at h
    · next heq =>
      rw [← hsplit, heq, List.append_nil,
        List.dropWhile_eq_nil_iff.2 fun x hx => hdigits x hx]
      simp
    · next fr heq =>
      split at h
      · next hcond =>
        simp only [Bool.and_eq_true, decide_eq_true_eq] at hcond
        rw [← hsplit, heq, dropWhile_append_of_all _ _ _ hdigits, List.dropWhile_cons,
          if_neg (by simp)]
        simpa using hcond.2
      · cases h
    · cases h

theorem noComma_stripTok (s : String) : noComma (stripTok s) := by
  unfold noComma
  rw [stripTok_toList]
  intro hmem
  have := (List.mem_filter.1 hmem).2
  simp at this

theorem money_shape_strip (t : String) (v : Nat)
    (hv : parseCentsOpt (stripCommas t.toList) = some v) :
    noComma (stripTok t) ∧ fracLen (stripTok t) ≤ 2 := by
  refine ⟨noComma_stripTok t, ?_⟩
  unfold fracLen
  rw [stripTok_toList]
  exact fracLen_of_parse _ v hv

theorem money_shape_neg (t : String) (v : Nat)
    (hv : parseCentsOpt (stripCommas t.toList) = some v) :
    noComma ("-" ++ stripTok t) ∧ fracLen ("-" ++ stripTok t) ≤ 2 := by
  have htl : ("-" ++ stripTok t).toList = '-' :: stripCommas t.toList := by
    show ("-" ++ stripTok t).data = _
    rw [String.data_append]
    rfl
  constructor
  · unfold noComma
    rw [htl]
    intro hmem
    rcases List.mem_cons.1 hmem with hcm | hcm
    · cases hcm
    · have := (List.mem_filter.1 hcm).2
      simp at this
  · unfold fracLen
    rw [htl, List.dropWhile_cons, if_pos (by decide)]
    exact fracLen_of_parse _ v hv

/-- C3 counterexample: `"1/2/2023 PnP 45"` has no strict-pattern token; the
    loose pattern yields the integer token `45`, emitted unchanged as the
    balance of the final output — not a two-decimal-place string. -/
theorem c3_counterexample :
    parseTransactionLine defaultConfig "1/2/2023 PnP 45" =
        some ⟨"01/02/2023", "PnP", "", "45"⟩ ∧
      cleanAndFormatApp [⟨"01/02/2023", "PnP", "", "45"⟩] =
        [⟨"01/02/2023", "PnP", "", "45"⟩] ∧
      twoDecimalStr "45" = false :=
  ⟨rfl, by decide, by decide⟩

/-- C3 (amended): every balance string in the final output, and every
    non-empty amount string, contains no thousands separator and has at most
    two digits after the decimal point (exactly two is not guaranteed: the
    loose fallback pattern admits zero or one). -/
theorem c3_theorem (cfg : Config) (lines : List String) (r : Txn)
    (hr : r ∈ cleanAndFormatApp (lines.filterMap (parseTransactionLine cfg))) :
    (noComma r.balance ∧ fracLen r.balance ≤ 2) ∧
      (r.amount = "" ∨ (noComma r.amount ∧ fracLen r.amount ≤ 2)) := by
  have h1 : r ∈ dedupApp (lines.filterMap (parseTransactionLine cfg)) := by
    unfold cleanAndFormatApp at hr
    exact mem_sortByDate.1 hr
  have h2 : r ∈ lines.filterMap (parseTransactionLine cfg) := by
    rw [dedupApp_eq_spec] at h1
    exact List.Sublist.mem h1 (dedupSpecApp_sublist [] _)
  obtain ⟨line, _, hparse⟩ := List.mem_filterMap.1 h2
  obtain ⟨dstr, lastTok, _, hlast, _, _, hbal, hamt⟩ :=
    parseTransactionLine_spec cfg line r hparse
  have hlastmem : lastTok ∈ lineTokens line dstr := List.mem_of_getLast?_eq_some hlast
  have hvalid : validTok lastTok = true := (List.mem_filter.1 hlastmem).2
  obtain ⟨v, hv, _, _⟩ := validTok_val lastTok hvalid
  constructor
  · rw [hbal]
    exact money_shape_strip lastTok v hv
  · by_cases h2l : 2 ≤ (lineTokens line dstr).length
    · rw [if_pos h2l] at hamt
      cases hf : (lineTokens line dstr).dropLast.find? materialTok with
      | none =>
        rw [hf] at hamt
        exact Or.inl (hamt.trans rfl)
      | some t =>
        rw [hf] at hamt
        have hamt2 : r.amount =
            if isCredit cfg (lineDesc line dstr) then stripTok t else "-" ++ stripTok t :=
          hamt.trans rfl
        obtain ⟨w, hw, _⟩ := materialTok_val t (List.find?_some hf)
        refine Or.inr ?_
        by_cases hc : isCredit cfg (lineDesc line dstr) = true
        · rw [if_pos hc] at hamt2
          rw [hamt2]
          exact money_shape_strip t w hw
        · rw [if_neg hc] at hamt2
          rw [hamt2]
          exact money_shape_neg t w hw
    · rw [if_neg h2l] at hamt
      exact Or.inl hamt

/-- C3 witness: Scenario B's line through the whole pipeline. -/
theorem c3_witness :
    (⟨"05/03/2023", "PnP Norwood", "-45.50", "1004.48"⟩ : Txn) ∈
        cleanAndFormatApp
          (["05/03/2023 PnP Norwood 45.50 1,004.48"].filterMap
            (parseTransactionLine defaultConfig)) ∧
      ((noComma (⟨"05/03/2023", "PnP Norwood", "-45.50", "1004.48"⟩ : Txn).balance ∧
          fracLen (⟨"05/03/2023", "PnP Norwood", "-45.50", "1004.48"⟩ : Txn).balance ≤ 2) ∧
        ((⟨"05/03/2023", "PnP Norwood", "-45.50", "1004.48"⟩ : Txn).amount = "" ∨
          (noComma (⟨"05/03/2023", "PnP Norwood", "-45.50", "1004.48"⟩ : Txn).amount ∧
            fracLen (⟨"05/03/2023", "PnP Norwood", "-45.50", "1004.48"⟩ : Txn).amount ≤ 2))) :=
  ⟨by decide, c3_theorem defaultConfig ["05/03/2023 PnP Norwood 45.50 1,004.48"] _ (by decide)⟩

/-! ## Claim C2

At most one opening-balance record, forced to the front; the other records
are non-decreasing by calendar date whenever all dates parse. -/

/-- The inferred-opening-balance block either leaves the list unchanged or
    prepends one opening-balance record. -/
theorem synthOpening_cases (s : List Txn) :
    synthOpening s = s ∨ ∃ nw, isOpening nw = true ∧ synthOpening s = nw :: s := by
  unfold synthOpening
  split
  · exact Or.inl rfl
  · match s with
    | [] => exact Or.inl rfl
    | first :: rest =>
      cases hb : parseMoneyOpt first.balance with
      | none => simp [hb]
      | some b =>
        cases ha : parseAmountOpt first.amount with
        | none => simp [hb, ha]
        | some a =>
          by_cases hba : 0 < b - a
          · refine Or.inr
              ⟨⟨first.date, "Opening balance", "", formatCents (b - a).toNat⟩, rfl, ?_⟩
            simp [hb, ha, hba]
          · simp [hb, ha, hba]

/-- The reorder step keeps at most one opening-balance record, puts any such
    record at index 0, and filters the rest unchanged. -/
theorem moveOpeningFirst_spec (s2 : List Txn) :
    ((moveOpeningFirst s2).countP isOpening ≤ 1) ∧
      (∀ i (hi : i < (moveOpeningFirst s2).length),
        isOpening ((moveOpeningFirst s2).get ⟨i, hi⟩) = true → i = 0) ∧
      (moveOpeningFirst s2).filter (fun t => !isOpening t) =
        s2.filter (fun t => !isOpening t) := by
  have hallf : ∀ a ∈ s2.filter (fun t => !isOpening t), isOpening a = false :=
    fun a ha => by simpa using (List.mem_filter.1 ha).2
  have hfid : (s2.filter (fun t => !isOpening t)).filter (fun t => !isOpening t) =
      s2.filter (fun t => !isOpening t) :=
    List.filter_eq_self.2 fun a ha => (List.mem_filter.1 ha).2
  unfold moveOpeningFirst
  cases hf : s2.find? isOpening with
  | none =>
    simp only [List.nil_append]
    refine ⟨?_, ?_, hfid⟩
    · rw [List.countP_eq_zero.2 fun a ha => by simp [hallf a ha]]
      norm_num
    · intro i hi hop
      have hfalse := hallf _ (List.get_mem (s2.filter fun t => !isOpening t) i hi)
      rw [hfalse] at hop
      cases hop
  | some o =>
    have ho := List.find?_some hf
    simp only [List.singleton_append]
    refine ⟨?_, ?_, ?_⟩
    · rw [List.countP_cons, List.countP_eq_zero.2 fun a ha => by simp [hallf a ha]]
      simp [ho]
    · intro i hi hop
      cases i with
      | zero => rfl
      | succ n =>
        have hn : n < (s2.filter fun t => !isOpening t).length :=
          Nat.lt_of_succ_lt_succ (by simpa using hi)
        have hfalse := hallf _ (List.get_mem (s2.filter fun t => !isOpening t) n hn)
        have hget : (o :: s2.filter fun t => !isOpening t).get ⟨n + 1, hi⟩ =
            (s2.filter fun t => !isOpening t).get ⟨n, hn⟩ := rfl
        rw [hget, hfalse] at hop
        cases hop
    · rw [List.filter_cons_of_neg (by simp [ho]), hfid]

/-- C2: in the final `app-v2.py` output, on an input whose record dates all
    parse, every opening-balance record sits at index 0 (hence there is at
    most one, irrespective of its own date), and the remaining records are
    pairwise non-decreasing by calendar date. -/
theorem c2_theorem (l : List Txn) (h : ∀ t ∈ l, (parseDate t.date).isSome) :
    ((cleanAndFormatV2 l).countP isOpening ≤ 1) ∧
      (∀ i (hi : i < (cleanAndFormatV2 l).length),
        isOpening ((cleanAndFormatV2 l).get ⟨i, hi⟩) = true → i = 0) ∧
      ((cleanAndFormatV2 l).filter (fun t => !isOpening t)).Pairwise dLe := by
  have hd : ∀ t ∈ dedupV2 l, (parseDate t.date).isSome := by
    intro t ht
    rw [dedupV2_eq_spec] at ht
    exact h t (List.Sublist.mem ht (dedupSpecV2_sublist [] l))
  have hsorted : (sortByDate (dedupV2 l)).Pairwise dLe := sortByDate_sorted _ hd
  obtain ⟨hcount, hidx, hfilter⟩ := moveOpeningFirst_spec (synthOpening (sortByDate (dedupV2 l)))
  refine ⟨hcount, hidx, ?_⟩
  show ((moveOpeningFirst (synthOpening (sortByDate (dedupV2 l)))).filter
    (fun t => !isOpening t)).Pairwise dLe
  rw [hfilter]
  rcases synthOpening_cases (sortByDate (dedupV2 l)) with hcase | ⟨nw, hnw, hcase⟩
  · rw [hcase]
    exact List.Pairwise.sublist (List.filter_sublist _) hsorted
  · rw [hcase, List.filter_cons_of_neg (by simp [hnw])]
    exact List.Pairwise.sublist (List.filter_sublist _) hsorted

/-- C2 witness: a concrete input whose output has the synthesized opening
    record in front and the rest sorted by date. -/
theorem c2_witness :
    (∀ t ∈ [(⟨"05/03/2023", "PnP Norwood", "-45.50", "1004.48"⟩ : Txn),
        ⟨"21/01/2023", "Herd2", "2000.00", "4549.98"⟩], (parseDate t.date).isSome) ∧
      (((cleanAndFormatV2 [⟨"05/03/2023", "PnP Norwood", "-45.50", "1004.48"⟩,
            ⟨"21/01/2023", "Herd2", "2000.00", "4549.98"⟩]).countP isOpening ≤ 1) ∧
        (∀ i (hi : i < (cleanAndFormatV2 [⟨"05/03/2023", "PnP Norwood", "-45.50", "1004.48"⟩,
            ⟨"21/01/2023", "Herd2", "2000.00", "4549.98"⟩]).length),
          isOpening ((cleanAndFormatV2 [⟨"05/03/2023", "PnP Norwood", "-45.50", "1004.48"⟩,
            ⟨"21/01/2023", "Herd2", "2000.00", "4549.98"⟩]).get ⟨i, hi⟩) = true → i = 0) ∧
        ((cleanAndFormatV2 [⟨"05/03/2023", "PnP Norwood", "-45.50", "1004.48"⟩,
            ⟨"21/01/2023", "Herd2", "2000.00", "4549.98"⟩]).filter
          (fun t => !isOpening t)).Pairwise dLe) :=
  ⟨by decide,
    c2_theorem [⟨"05/03/2023", "PnP Norwood", "-45.50", "1004.48"⟩,
      ⟨"21/01/2023", "Herd2", "2000.00", "4549.98"⟩] (by decide)⟩

/-! ## Claim C7: support lemmas

Idempotence of the `app-v2.py` Deduplicator & Sequencer holds once every
record date parses; the key step is that the synthesized opening-balance
record's deduplication key is fresh: a parseable date contains no
underscore, so the key determines the date, and a 20-character description
prefix matching `"Opening balance"` up to the key's separator forces the
description to start with "Opening balance" — making the record an opening
record, which the synthesizing branch excludes. -/

theorem append_underscore_inj :
    ∀ (a b u v : List Char), '_' ∉ a → '_' ∉ b →
      a ++ '_' :: u = b ++ '_' :: v → a = b ∧ u = v
  | [], [], _, _, _, _, h => ⟨rfl, by simpa using h⟩
  | [], c :: b', _, _, _, hb, h => by
    simp only [List.nil_append, List.cons_append, List.cons.injEq] at h
    exact absurd (h.1 ▸ List.mem_cons_self c b') hb
  | c :: a', [], _, _, ha, _, h => by
    simp only [List.nil_append, List.cons_append, List.cons.injEq] at h
    exact absurd (h.1 ▸ List.mem_cons_self c a') ha
  | c :: a', e :: b', u, v, ha, hb, h => by
    simp only [List.cons_append, List.cons.injEq] at h
    obtain ⟨rfl, h2⟩ := h
    obtain ⟨h3, h4⟩ := append_underscore_inj a' b' u v
      (fun hm => ha (List.mem_cons_of_mem c hm))
      (fun hm => hb (List.mem_cons_of_mem c hm)) h2
    exact ⟨by rw [h3], h4⟩

theorem keyOf_data (t : Txn) :
    (keyOf t).data =
      t.date.data ++ '_' :: (t.description.data.take 20 ++ '_' :: t.balance.data) := by
  show (t.date ++ "_" ++ String.mk (t.description.toList.take 20) ++ "_" ++ t.balance).data = _
  simp [String.data_append]

/-- A 20-character prefix that agrees with `"Opening balance" ++ "_" ++ ...`
    must begin with the full phrase. -/
theorem opening_prefix_of_key (desc B bal2 : List Char)
    (h : desc.take 20 ++ '_' :: B = "Opening balance".data ++ '_' :: bal2) :
    desc.take 15 = "Opening balance".data := by
  have hOB : ('_' : Char) ∉ "Opening balance".data := by decide
  by_cases hlen : 15 ≤ (desc.take 20).length
  · have h15 : (desc.take 20).take 15 = "Opening balance".data := by
      have h2 := congrArg (List.take 15) h
      rw [List.take_append_of_le_length hlen,
        List.take_append_of_le_length (by decide),
        show ("Opening balance".data.take 15) = "Opening balance".data from rfl] at h2
      exact h2
    rw [List.take_take] at h15
    simpa using h15
  · push_neg at hlen
    have hidx := congrArg (fun l : List Char => l[(desc.take 20).length]?) h
    simp only at hidx
    rw [List.getElem?_append_right (Nat.le_refl _), Nat.sub_self,
      List.getElem?_append_left (by simpa using hlen)] at hidx
    have h0 : ('_' :: B)[0]? = some '_' := by simp
    have : ('_' : Char) ∈ "Opening balance".data :=
      List.getElem?_mem (hidx.symm.trans h0)
    exact absurd this hOB

theorem startsWithCs_self_append : ∀ (p rest : List Char), startsWithCs p (p ++ rest) = true
  | [], _ => rfl
  | c :: p', rest => by
    rw [List.cons_append, startsWithCs]
    simp [startsWithCs_self_append p' rest]

theorem containsCs_self_append (p rest : List Char) : containsCs p (p ++ rest) = true := by
  cases p with
  | nil =>
    cases rest with
    | nil => rfl
    | cons c cs =>
      rw [List.nil_append, containsCs]
      simp [startsWithCs]
  | cons c p' =>
    rw [List.cons_append, containsCs, startsWithCs]
    simp [startsWithCs_self_append p' rest]

theorem isOpening_of_take15 (x : Txn)
    (h : x.description.data.take 15 = "Opening balance".data) : isOpening x = true := by
  have hsplit : x.description.data =
      "Opening balance".data ++ x.description.data.drop 15 := by
    conv_lhs => rw [← List.take_append_drop 15 x.description.data]
    rw [h]
  show containsCs ("opening balance".toList) (toLowerCs x.description.toList) = true
  rw [show x.description.toList = x.description.data from rfl, hsplit]
  unfold toLowerCs
  rw [List.map_append,
    show List.map lowerC "Opening balance".data = "opening balance".toList by decide]
  exact containsCs_self_append _ _

/-- The synthesized record's key collides with no non-opening record whose
    date is underscore-free. -/
theorem keyOf_opening_ne (x : Txn) (dnew bal : String)
    (hxd : '_' ∉ x.date.data) (hnd : '_' ∉ dnew.data)
    (hxop : isOpening x = false) :
    keyOf x ≠ keyOf ⟨dnew, "Opening balance", "", bal⟩ := by
  intro hkey
  have hdata := congrArg String.data hkey
  rw [keyOf_data, keyOf_data] at hdata
  simp only at hdata
  rw [show ("Opening balance" : String).data.take 20 = "Opening balance".data from rfl]
    at hdata
  obtain ⟨_, hrest⟩ := append_underscore_inj _ _ _ _ hxd hnd hdata
  have h15 := opening_prefix_of_key _ _ _ hrest
  rw [isOpening_of_take15 x h15] at hxop
  cases hxop

/-- A string accepted by `strptime('%d/%m/%Y')` contains no underscore. -/
theorem parseDate_no_underscore (ds : String) (h : (parseDate ds).isSome) :
    '_' ∉ ds.data := by
  intro hmem
  have hsplit : ∀ (cs cur : List Char), '_' ∈ cur ∨ '_' ∈ cs →
      ∃ p ∈ splitSlashAux cur cs, '_' ∈ p := by
    intro cs
    induction cs with
    | nil =>
      intro cur hc
      rcases hc with hc | hc
      · exact ⟨cur.reverse, by simp [splitSlashAux], by simpa using hc⟩
      · simp at hc
    | cons e cs' ih =>
      intro cur hc
      rw [splitSlashAux]
      by_cases he : e == '/'
      · rw [if_pos he]
        rcases hc with hc | hc
        · exact ⟨cur.reverse, List.mem_cons_self _ _, by simpa using hc⟩
        · rcases List.mem_cons.1 hc with heq | hc2
          · rw [show e = '/' by simpa using he] at heq
            cases heq
          · obtain ⟨p, hp, hmp⟩ := ih [] (Or.inr hc2)
            exact ⟨p, List.mem_cons_of_mem _ hp, hmp⟩
      · rw [if_neg he]
        rcases hc with hc | hc
        · exact ih (e :: cur) (Or.inl (List.mem_cons_of_mem e hc))
        · rcases List.mem_cons.1 hc with heq | hc2
          · exact ih (e :: cur) (Or.inl (heq ▸ List.mem_cons_self e cur))
          · exact ih (e :: cur) (Or.inr hc2)
  unfold parseDate at h
  split at h
  · next ds1 ms ys heq =>
    obtain ⟨p, hp, hmp⟩ := hsplit ds.toList [] (Or.inr hmem)
    rw [show splitSlashAux [] ds.toList = splitSlash ds.toList from rfl, heq] at hp
    split at h
    · next d m hd hm =>
      have hday : ∀ c ∈ ds1, c = ' ' ∨ isDigitC c = true := by
        intro c hc
        unfold dayVal at hd
        split at hd
        · next c2 =>
          rcases List.mem_cons.1 hc with rfl | hc2
          · exact Or.inl rfl
          · rcases List.mem_singleton.1 hc2 with rfl
            split at hd
            · next hcond => exact Or.inr (by
                simp only [Bool.and_eq_true] at hcond
                exact hcond.1)
            · cases hd
        · split at hd
          · next hcond =>
            simp only [Bool.and_eq_true] at hcond
            exact Or.inr (List.all_eq_true.1 hcond.1.1.1.1 c hc)
          · cases hd
      have hmonth : ∀ c ∈ ms, isDigitC c = true := by
        intro c hc
        unfold monthVal at hm
        split at hm
        · next hcond =>
          simp only [Bool.and_eq_true] at hcond
          exact List.all_eq_true.1 hcond.1.1.1.1 c hc
        · cases hm
      have hyear : ∀ c ∈ ys, isDigitC c = true := by
        intro c hc
        split at h
        · next hcond =>
          simp only [Bool.and_eq_true] at hcond
          exact List.all_eq_true.1 hcond.1.1.1 c hc
        · cases h
      rcases List.mem_cons.1 hp with rfl | hp2
      · rcases hday '_' hmp with h1 | h1
        · cases h1
        · exact absurd h1 (by decide)
      · rcases List.mem_cons.1 hp2 with rfl | hp3
        · exact absurd (hmonth '_' hmp) (by decide)
        · rcases List.mem_singleton.1 hp3 with rfl
          exact absurd (hyear '_' hmp) (by decide)
    · cases h
  · cases h

theorem synthOpening_of_any (s2 : List Txn) (hx : s2.any isOpening = true) :
    synthOpening s2 = s2 := by
  unfold synthOpening
  rw [if_pos hx]

/-- Sharper shape of the synthesizing branch: it fires only on a list with no
    opening record, and the new record carries the first record's date. -/
theorem synthOpening_shape (s : List Txn) :
    synthOpening s = s ∨
      (s.any isOpening = false ∧ ∃ first rest bal, s = first :: rest ∧
        synthOpening s =
          (⟨first.date, "Opening balance", "", bal⟩ : Txn) :: s) := by
  unfold synthOpening
  split
  · exact Or.inl rfl
  · next hany =>
    match s with
    | [] => exact Or.inl rfl
    | first :: rest =>
      cases hb : parseMoneyOpt first.balance with
      | none => simp [hb]
      | some b =>
        cases ha : parseAmountOpt first.amount with
        | none => simp [hb, ha]
        | some a =>
          by_cases hba : 0 < b - a
          · refine Or.inr ⟨by simpa using hany, first, rest,
              formatCents (b - a).toNat, rfl, ?_⟩
            simp [hb, ha, hba]
          · simp [hb, ha, hba]

theorem mem_moveOpeningFirst (s2 : List Txn) (x : Txn)
    (hx : x ∈ moveOpeningFirst s2) : x ∈ s2 := by
  unfold moveOpeningFirst at hx
  cases hf : s2.find? isOpening with
  | none =>
    rw [hf] at hx
    have hx2 : x ∈ List.filter (fun t => !isOpening t) s2 := hx
    exact (List.mem_filter.1 hx2).1
  | some o =>
    rw [hf] at hx
    rcases List.mem_append.1 hx with h1 | h2
    · rcases List.mem_singleton.1 h1 with rfl
      exact List.mem_of_find?_eq_some hf
    · exact (List.mem_filter.1 h2).1

theorem moveOpeningFirst_pairwise_key (s2 : List Txn)
    (hk : s2.Pairwise fun a b => keyOf a ≠ keyOf b) :
    (moveOpeningFirst s2).Pairwise fun a b => keyOf a ≠ keyOf b := by
  have hsym : Symmetric fun a b : Txn => keyOf a ≠ keyOf b := fun a b hab he => hab he.symm
  unfold moveOpeningFirst
  cases hf : s2.find? isOpening with
  | none =>
    have : List.Pairwise (fun a b => keyOf a ≠ keyOf b)
        (List.filter (fun t => !isOpening t) s2) :=
      List.Pairwise.sublist (List.filter_sublist s2) hk
    exact this
  | some o =>
    have ho := List.find?_some hf
    have hom := List.mem_of_find?_eq_some hf
    simp only [List.singleton_append]
    refine List.Pairwise.cons ?_ (List.Pairwise.sublist (List.filter_sublist s2) hk)
    intro x hx
    have hxm := (List.mem_filter.1 hx).1
    have hxop : isOpening x = false := by simpa using (List.mem_filter.1 hx).2
    have hne : o ≠ x := by
      intro he
      rw [← he, ho] at hxop
      cases hxop
    exact hk.forall hsym hom hxm hne

theorem moveOpeningFirst_orderedInsert (o : Txn) (f : List Txn)
    (ho : isOpening o = true) (hfno : ∀ t ∈ f, isOpening t = false) :
    moveOpeningFirst (List.orderedInsert dLe o f) = o :: f := by
  unfold moveOpeningFirst
  rw [find?_orderedInsert_opening o f ho hfno, filter_orderedInsert_opening o f ho hfno]
  rfl

/-- One full second pass over an already-produced output of the shape
    `opening :: sorted-non-opening`, all of whose dates parse, whose fields
    are non-empty, and whose keys are distinct, reproduces it. -/
theorem cleanAndFormatV2_fixpoint_cons (o : Txn) (f : List Txn)
    (ho : isOpening o = true) (hfno : ∀ t ∈ f, isOpening t = false)
    (hfsorted : f.Pairwise dLe)
    (hparse : ∀ t ∈ o :: f, (parseDate t.date).isSome)
    (hfields : ∀ t ∈ o :: f, t.date ≠ "" ∧ t.description ≠ "")
    (hkeys : (o :: f).Pairwise fun a b => keyOf a ≠ keyOf b) :
    cleanAndFormatV2 (o :: f) = o :: f := by
  unfold cleanAndFormatV2
  have hded : dedupV2 (o :: f) = o :: f := by
    rw [dedupV2_eq_spec]
    exact dedupSpecV2_eq_self _ hfields hkeys [] (by simp)
  rw [hded, sortByDate_of_parses _ hparse]
  simp only [List.insertionSort]
  rw [List.Sorted.insertionSort_eq hfsorted,
    synthOpening_of_any _
      (List.any_eq_true.2 ⟨o, (List.mem_orderedInsert _).2 (Or.inl rfl), ho⟩),
    moveOpeningFirst_orderedInsert o f ho hfno]

/-- A full pass over a sorted, key-distinct, opening-free list on which the
    synthesizing branch declined to fire reproduces it. -/
theorem cleanAndFormatV2_fixpoint_noopen (s : List Txn)
    (hnone : ∀ t ∈ s, isOpening t = false) (hsorted : s.Pairwise dLe)
    (hparse : ∀ t ∈ s, (parseDate t.date).isSome)
    (hfields : ∀ t ∈ s, t.date ≠ "" ∧ t.description ≠ "")
    (hkeys : s.Pairwise fun a b => keyOf a ≠ keyOf b)
    (hsyn : synthOpening s = s) :
    cleanAndFormatV2 s = s := by
  unfold cleanAndFormatV2
  have hded : dedupV2 s = s := by
    rw [dedupV2_eq_spec]
    exact dedupSpecV2_eq_self _ hfields hkeys [] (by simp)
  rw [hded, sortByDate_of_parses _ hparse, List.Sorted.insertionSort_eq hsorted, hsyn,
    moveOpeningFirst_of_none _ hnone]

/-- C7 (amended): the Deduplicator & Sequencer is idempotent on every input
    record list in which every record's date parses as DD/MM/YYYY. -/
theorem c7_theorem (l : List Txn) (h : ∀ t ∈ l, (parseDate t.date).isSome) :
    cleanAndFormatV2 (cleanAndFormatV2 l) = cleanAndFormatV2 l := by
  have hsym : Symmetric fun a b : Txn => keyOf a ≠ keyOf b := fun a b hab he => hab he.symm
  have hdmem : ∀ t ∈ dedupV2 l, t ∈ l := fun t ht => by
    rw [dedupV2_eq_spec] at ht
    exact List.Sublist.mem ht (dedupSpecV2_sublist [] l)
  have hdfields : ∀ t ∈ dedupV2 l, t.date ≠ "" ∧ t.description ≠ "" := fun t ht => by
    rw [dedupV2_eq_spec] at ht
    have h3 := mem_dedupSpecV2 [] l t ht
    exact ⟨h3.2.1, h3.2.2⟩
  have hdkeys : (dedupV2 l).Pairwise fun a b => keyOf a ≠ keyOf b := by
    rw [dedupV2_eq_spec]
    exact dedupSpecV2_pairwise [] l
  have hdparse : ∀ t ∈ dedupV2 l, (parseDate t.date).isSome := fun t ht => h t (hdmem t ht)
  have hsmem : ∀ t ∈ sortByDate (dedupV2 l), t ∈ dedupV2 l := fun t ht => mem_sortByDate.1 ht
  have hsparse : ∀ t ∈ sortByDate (dedupV2 l), (parseDate t.date).isSome :=
    fun t ht => hdparse t (hsmem t ht)
  have hsfields : ∀ t ∈ sortByDate (dedupV2 l), t.date ≠ "" ∧ t.description ≠ "" :=
    fun t ht => hdfields t (hsmem t ht)
  have hskeys : (sortByDate (dedupV2 l)).Pairwise fun a b => keyOf a ≠ keyOf b :=
    ((sortByDate_perm (dedupV2 l)).pairwise_iff fun hab => hsym hab).2 hdkeys
  have hssorted : (sortByDate (dedupV2 l)).Pairwise dLe := sortByDate_sorted _ hdparse
  have hcf : cleanAndFormatV2 l =
      moveOpeningFirst (synthOpening (sortByDate (dedupV2 l))) := rfl
  rcases synthOpening_shape (sortByDate (dedupV2 l)) with hsyn |
    ⟨hany, first, rest, bal, hcons, hsyn⟩
  · cases hf : (sortByDate (dedupV2 l)).find? isOpening with
    | none =>
      have hnone : ∀ t ∈ sortByDate (dedupV2 l), isOpening t = false := fun t ht => by
        have := List.find?_eq_none.1 hf t ht
        simpa using this
      have hout1 : cleanAndFormatV2 l = sortByDate (dedupV2 l) := by
        rw [hcf, hsyn, moveOpeningFirst_of_none _ hnone]
      rw [hout1]
      exact cleanAndFormatV2_fixpoint_noopen _ hnone hssorted hsparse hsfields hskeys hsyn
    | some o =>
      have ho := List.find?_some hf
      have hom := List.mem_of_find?_eq_some hf
      have hout1 : cleanAndFormatV2 l =
          o :: (sortByDate (dedupV2 l)).filter (fun t => !isOpening t) := by
        rw [hcf, hsyn]
        unfold moveOpeningFirst
        rw [hf]
        rfl
      have hkeys1 : (o :: (sortByDate (dedupV2 l)).filter (fun t => !isOpening t)).Pairwise
          fun a b => keyOf a ≠ keyOf b := by
        have := moveOpeningFirst_pairwise_key _ hskeys
        unfold moveOpeningFirst at this
        rw [hf] at this
        exact this
      rw [hout1]
      refine cleanAndFormatV2_fixpoint_cons o _ ho ?_ ?_ ?_ ?_ hkeys1
      · intro t ht
        simpa using (List.mem_filter.1 ht).2
      · exact List.Pairwise.sublist (List.filter_sublist _) hssorted
      · intro t ht
        rcases List.mem_cons.1 ht with rfl | ht2
        · exact hsparse t hom
        · exact hsparse t (List.Sublist.mem ht2 (List.filter_sublist _))
      · intro t ht
        rcases List.mem_cons.1 ht with rfl | ht2
        · exact hsfields t hom
        · exact hsfields t (List.Sublist.mem ht2 (List.filter_sublist _))
  · have hnos : ∀ t ∈ sortByDate (dedupV2 l), isOpening t = false := fun t ht => by
      have := List.any_eq_false.1 hany t ht
      simpa using this
    have hfirstmem : first ∈ sortByDate (dedupV2 l) := by
      rw [hcons]
      exact List.mem_cons_self _ _
    have hnwop : isOpening (⟨first.date, "Opening balance", "", bal⟩ : Txn) = true := rfl
    have hout1 : cleanAndFormatV2 l =
        (⟨first.date, "Opening balance", "", bal⟩ : Txn) :: sortByDate (dedupV2 l) := by
      rw [hcf, hsyn]
      unfold moveOpeningFirst
      rw [List.find?_cons_of_pos _ hnwop, List.filter_cons_of_neg (by simp [hnwop]),
        List.filter_eq_self.2 fun t ht => by simp [hnos t ht]]
      rfl
    rw [hout1]
    refine cleanAndFormatV2_fixpoint_cons _ _ hnwop hnos hssorted ?_ ?_ ?_
    · intro t ht
      rcases List.mem_cons.1 ht with rfl | ht2
      · exact hsparse first hfirstmem
      · exact hsparse t ht2
    · intro t ht
      rcases List.mem_cons.1 ht with rfl | ht2
      · exact ⟨(hsfields first hfirstmem).1, by simp⟩
      · exact hsfields t ht2
    · refine List.Pairwise.cons ?_ hskeys
      intro x hx
      have hxu : ('_' : Char) ∉ x.date.data := parseDate_no_underscore _ (hsparse x hx)
      have hfu : ('_' : Char) ∉ first.date.data :=
        parseDate_no_underscore _ (hsparse first hfirstmem)
      exact fun he => keyOf_opening_ne x first.date bal hxu hfu (hnos x hx) he.symm

/-- C7 counterexample: a record set carrying an unparseable date on a
    duplicate opening-balance record.  The first pass cannot sort (the bad
    date raises), drops the extra opening record, and moves the surviving one
    to the front; the second pass can then sort the remaining records, so it
    returns them in a different order. -/
theorem c7_counterexample :
    cleanAndFormatV2 (cleanAndFormatV2
        [⟨"01/06/2023", "opening balance a", "", "5.00"⟩,
         ⟨"99/99/9999", "opening balance b", "", "6.00"⟩,
         ⟨"02/01/2023", "zzz", "", "7.00"⟩,
         ⟨"01/01/2023", "yyy", "", "8.00"⟩]) ≠
      cleanAndFormatV2
        [⟨"01/06/2023", "opening balance a", "", "5.00"⟩,
         ⟨"99/99/9999", "opening balance b", "", "6.00"⟩,
         ⟨"02/01/2023", "zzz", "", "7.00"⟩,
         ⟨"01/01/2023", "yyy", "", "8.00"⟩] := by
  decide

/-- C7 witness: idempotence on a concrete record set whose dates all parse. -/
theorem c7_witness :
    (∀ t ∈ [(⟨"05/03/2023", "PnP Norwood", "-45.50", "1004.48"⟩ : Txn),
        ⟨"21/01/2023", "Herd2", "2000.00", "4549.98"⟩,
        ⟨"21/01/2023", "Herd2", "2000.00", "4549.98"⟩], (parseDate t.date).isSome) ∧
      cleanAndFormatV2 (cleanAndFormatV2
          [⟨"05/03/2023", "PnP Norwood", "-45.50", "1004.48"⟩,
           ⟨"21/01/2023", "Herd2", "2000.00", "4549.98"⟩,
           ⟨"21/01/2023", "Herd2", "2000.00", "4549.98"⟩]) =
        cleanAndFormatV2
          [⟨"05/03/2023", "PnP Norwood", "-45.50", "1004.48"⟩,
           ⟨"21/01/2023", "Herd2", "2000.00", "4549.98"⟩,
           ⟨"21/01/2023", "Herd2", "2000.00", "4549.98"⟩] :=
  ⟨by decide,
    c7_theorem [⟨"05/03/2023", "PnP Norwood", "-45.50", "1004.48"⟩,
      ⟨"21/01/2023", "Herd2", "2000.00", "4549.98"⟩,
      ⟨"21/01/2023", "Herd2", "2000.00", "4549.98"⟩] (by decide)⟩

end SC
